import Mathlib

/-!
# pman: permission model, secret repository, session tokens and identities

A shallow embedding of `shared/permissions/permissions.go`,
`backend/services/password_service.go`, `backend/services/token_service.go`,
`backend/services/user_service.go`, `shared/auth/jwt.go` (`HashToken`),
`DB.createDefaultAdmin`, `Handlers.DisableUser`, `expandCombinedFlags` of
`cli/commands/commands.go` and `BuildTree` of `cli/tree/tree.go`, and theorems
about them.

Modelling conventions

* A Go `string` is a list of characters (`Str`): strings are taken to be
  valid UTF-8, on which splitting at `,`, `:` or `/` by bytes and by
  characters agree.  Literals are written `"team1:rw".toList`.  Where the
  code counts or indexes bytes (`expandCombinedFlags`), the bytes are those of
  the UTF-8 encoding (`bytes`).
* `strings.Split`, `strings.TrimSpace`, `strings.Join` and `unicode.IsSpace`
  follow the Go standard library; `LIKE` and `ORDER BY` follow SQLite with
  its default settings.  In `WHERE a AND b` the conditions are evaluated on
  each row from left to right, and an error of one fails the statement, which
  then changes nothing.
* The `passwords`, `tokens` and `users` tables are lists of rows in insertion
  order.  A method that writes takes the tables it touches and returns its
  result paired with the tables it leaves; a method that only reads is a
  function of the table.  Storage calls are assumed not to fail for reasons
  of their own (no I/O error): every error a method returns is one its own
  code produces, or one the data make a statement return (`SqlError`).
* A Go result `(value, error)` is an `Except`; the error values built with
  `fmt.Errorf` are the constructors of `ParseError` and `ServiceError`.
* The time of a call is a parameter `now`, an instant in whole seconds.
  Where a statement compares `expires_at` with `CURRENT_TIMESTAMP` it compares
  two texts (`TimeText`): the one the driver stored for the `time.Time`, and
  the one SQLite gives the current time.
* Calls run one after the other: a state is reached by a sequence of calls
  (`run`), each applied to the state the one before left.
* A Go map is the list of its entries; a pointer to a `Node` is the node.
-/

set_option autoImplicit false

namespace Pman

/-- A Go string, as its sequence of characters. -/
abbrev Str := List Char

/-! ## Go standard library -/

/-- Go `unicode.IsSpace`: the Latin-1 white space characters and the other
code points with the Unicode `White_Space` property. -/
def unicode.IsSpace (r : Char) : Bool :=
  let n := r.toNat
  n == 0x09 || n == 0x0A || n == 0x0B || n == 0x0C || n == 0x0D || n == 0x20 ||
  n == 0x85 || n == 0xA0 || n == 0x1680 || (0x2000 ≤ n && n ≤ 0x200A) ||
  n == 0x2028 || n == 0x2029 || n == 0x202F || n == 0x205F || n == 0x3000

/-- Go `strings.TrimSpace`: all leading and trailing white space removed. -/
def strings.TrimSpace (s : Str) : Str :=
  (s.dropWhile unicode.IsSpace).rdropWhile unicode.IsSpace

/-- Go `strings.Split(s, sep)` for a one-character separator: the pieces of
`s` between the occurrences of `sep`; always at least one piece. -/
def strings.Split : Str → Char → List Str
  | [], _ => [[]]
  | c :: cs, sep =>
    if c = sep then [] :: strings.Split cs sep
    else
      match strings.Split cs sep with
      | [] => [[c]]
      | p :: ps => (c :: p) :: ps

/-- Go `strings.Join`. -/
def strings.Join : List Str → Str → Str
  | [], _ => []
  | [a], _ => a
  | a :: b :: rest, sep => a ++ sep ++ strings.Join (b :: rest) sep

/-- The bytes of a character in UTF-8: what indexing a Go string reads. -/
def utf8Bytes (c : Char) : List Nat :=
  let n := c.toNat
  if n < 0x80 then [n]
  else if n < 0x800 then [0xC0 + n / 0x40, 0x80 + n % 0x40]
  else if n < 0x10000 then [0xE0 + n / 0x1000, 0x80 + n / 0x40 % 0x40, 0x80 + n % 0x40]
  else [0xF0 + n / 0x40000, 0x80 + n / 0x1000 % 0x40, 0x80 + n / 0x40 % 0x40, 0x80 + n % 0x40]

/-- The bytes of a Go string. -/
def bytes (s : Str) : List Nat := (s.map utf8Bytes).flatten

/-! ## shared/permissions/permissions.go -/

/-- The struct `GroupAccess`. -/
structure GroupAccess where
  GroupName : Str
  Permission : Str
deriving DecidableEq, Repr

/-- The permission token `"ro"`. -/
def tokenRO : Str := ['r', 'o']

/-- The permission token `"rw"`. -/
def tokenRW : Str := ['r', 'w']

/-- The two errors `ParseGroups` builds with `fmt.Errorf`:
`invalid group format: <part> (expected format: groupname:permission)` and
`invalid permission <permission> for group <groupName> (must be ro or rw)`. -/
inductive ParseError where
  | invalidFormat (part : Str)
  | invalidPermission (permission groupName : Str)
deriving DecidableEq, Repr

deriving instance DecidableEq for Except

/-- The body of the `for _, part := range parts` loop of `ParseGroups`;
`groups` is the slice built so far. -/
def ParseGroups.loop : List Str → List GroupAccess → Except ParseError (List GroupAccess)
  | [], groups => .ok groups
  | part :: rest, groups =>
    let part := strings.TrimSpace part
    if part = [] then ParseGroups.loop rest groups
    else
      match strings.Split part ':' with
      | [g, p] =>
        let groupName := strings.TrimSpace g
        let permission := strings.TrimSpace p
        if permission ≠ tokenRO ∧ permission ≠ tokenRW then
          .error (.invalidPermission permission groupName)
        else
          ParseGroups.loop rest (groups ++ [{ GroupName := groupName, Permission := permission }])
      | _ => .error (.invalidFormat part)

/-- `ParseGroups(groupsStr)`. -/
def ParseGroups (groupsStr : Str) : Except ParseError (List GroupAccess) :=
  if groupsStr = [] then .ok []
  else ParseGroups.loop (strings.Split groupsStr ',') []

/-- `FormatGroups(groups)`. -/
def FormatGroups (groups : List GroupAccess) : Str :=
  strings.Join (groups.map fun group => group.GroupName ++ [':'] ++ group.Permission) [',']

/-- The `for _, group := range groups` loop of `HasGroupAccess`: the first
grant whose name is `requiredGroup` decides. -/
def HasGroupAccess.loop (requiredGroup : Str) (requireWrite : Bool) : List GroupAccess → Bool
  | [] => false
  | group :: rest =>
    if group.GroupName = requiredGroup then
      if requireWrite then decide (group.Permission = tokenRW) else true
    else HasGroupAccess.loop requiredGroup requireWrite rest

/-- `HasGroupAccess(userGroups, requiredGroup, requireWrite)`. -/
def HasGroupAccess (userGroups requiredGroup : Str) (requireWrite : Bool) : Bool :=
  match ParseGroups userGroups with
  | .error _ => false
  | .ok groups => HasGroupAccess.loop requiredGroup requireWrite groups

/-- `GetUserGroups(userGroups)`. -/
def GetUserGroups (userGroups : Str) : List Str :=
  match ParseGroups userGroups with
  | .error _ => []
  | .ok groups => groups.map (·.GroupName)

/-! ### Vocabulary of the specification for grant strings -/

/-- The comma-separated entries of a grant string. -/
def entries (groupsStr : Str) : List Str := strings.Split groupsStr ','

/-- The first `:`-separated part of a trimmed entry, trimmed: its group name. -/
def entryName (part : Str) : Str :=
  strings.TrimSpace ((strings.Split part ':').getD 0 [])

/-- The second `:`-separated part of a trimmed entry, trimmed: its permission. -/
def entryPermission (part : Str) : Str :=
  strings.TrimSpace ((strings.Split part ':').getD 1 [])

/-- The grant an entry stands for. -/
def entryGrant (part : Str) : GroupAccess :=
  { GroupName := entryName part, Permission := entryPermission part }

/-- An entry that is not blank and is malformed: trimmed, it does not split
on `:` into exactly two parts, or its second part, trimmed, is neither token. -/
def Malformed (e : Str) : Prop :=
  strings.TrimSpace e ≠ [] ∧
    ((strings.Split (strings.TrimSpace e) ':').length ≠ 2 ∨
      (entryPermission (strings.TrimSpace e) ≠ tokenRO ∧
        entryPermission (strings.TrimSpace e) ≠ tokenRW))

instance (e : Str) : Decidable (Malformed e) := by
  unfold Malformed; infer_instance

/-- The non-blank entries, trimmed, in their order in the string. -/
def liveEntries (parts : List Str) : List Str :=
  (parts.map strings.TrimSpace).filter (fun part => decide (part ≠ []))

/-! ## SQLite -/

/-- The errors of a statement that the data make fail: an `INSERT` of a value
already present in a column declared unique, and `LIKE or GLOB pattern too
complex`, the error of `LIKE` on a pattern of more than
`SQLITE_MAX_LIKE_PATTERN_LENGTH` bytes. -/
inductive SqlError where
  | uniqueConstraint
  | likePatternTooComplex
deriving DecidableEq, Repr

/-- The `%` case of `patternCompare`: some suffix of the text is accepted by
the rest of the pattern. -/
def patternCompare.anySuffix (rest : Str → Bool) : Str → Bool
  | [] => rest []
  | c :: s => rest (c :: s) || patternCompare.anySuffix rest s

/-- SQLite `patternCompare` as `LIKE` calls it with the default settings and
no `ESCAPE`: `%` matches any run of characters, `_` matches any one character,
and any other character matches itself, ASCII letters without regard to
case. -/
def patternCompare : (pattern : Str) → (text : Str) → Bool
  | [], text => text.isEmpty
  | c :: pattern, text =>
    if c = '%' then patternCompare.anySuffix (patternCompare pattern) text
    else
      match text with
      | [] => false
      | d :: text => (c = '_' || c.toLower = d.toLower) && patternCompare pattern text

/-- A text as `patternCompare` reads it, a C string: the characters before the
first NUL. -/
def untilNul (s : Str) : Str :=
  s.takeWhile (fun c => decide (c.toNat ≠ 0))

/-- SQLite `text LIKE pattern` (`likeFunc`) with the default settings: a
pattern of more than 50000 bytes is an error; otherwise the pattern and the
text, each up to its first NUL, are compared by `patternCompare`. -/
def sqlLike (pattern text : Str) : Except SqlError Bool :=
  if (bytes pattern).length > 50000 then .error .likePatternTooComplex
  else .ok (patternCompare (untilNul pattern) (untilNul text))

/-- SQL `ORDER BY path` under the `BINARY` collation: ascending order of the
strings compared character by character. -/
def orderBy (paths : List Str) : List Str :=
  paths.insertionSort (fun a b => a ≤ b)

/-! ## Times as text

A `time.Time` bound to a statement is stored by the driver as the text of its
`String()`, in the zone of the server, and `CURRENT_TIMESTAMP` is the text
`YYYY-MM-DD HH:MM:SS` in UTC.  SQLite compares the two as text.  Instants are
whole seconds since 1970-01-01 00:00:00 UTC. -/

/-- A number in two decimal digits. -/
def twoDigits (n : Nat) : Str :=
  [Nat.digitChar (n / 10 % 10), Nat.digitChar (n % 10)]

/-- The year, month and day of the day `days` after 1970-01-01. -/
def civilFromDays (days : Nat) : Nat × Nat × Nat :=
  let z := days + 719468
  let era := z / 146097
  let doe := z % 146097
  let yoe := (doe - doe / 1460 + doe / 36524 - doe / 146096) / 365
  let doy := doe - (365 * yoe + yoe / 4 - yoe / 100)
  let mp := (5 * doy + 2) / 153
  let d := doy - (153 * mp + 2) / 5 + 1
  let m := if mp < 10 then mp + 3 else mp - 9
  (if m ≤ 2 then yoe + era * 400 + 1 else yoe + era * 400, m, d)

/-- The text `YYYY-MM-DD HH:MM:SS` of the clock that shows 1970-01-01 00:00:00
at second 0. -/
def dateTime (seconds : Nat) : Str :=
  let date := civilFromDays (seconds / 86400)
  twoDigits (date.1 / 100) ++ twoDigits date.1 ++ ['-'] ++ twoDigits date.2.1 ++ ['-'] ++
    twoDigits date.2.2 ++ [' '] ++ twoDigits (seconds / 3600 % 24) ++ [':'] ++
    twoDigits (seconds / 60 % 60) ++ [':'] ++ twoDigits (seconds % 60)

/-- A zone of fixed offset: the seconds it is ahead of UTC, and its
abbreviation. -/
structure Zone where
  offset : Int
  name : Str
deriving DecidableEq, Repr

/-- Go `Time.String()` of an instant in a zone, `2006-01-02 15:04:05 -0700
MST`: the clock of the zone, its offset and its abbreviation.  The instant is
in whole seconds; the fraction of a second that `String()` prints after the
seconds, and the reading of the monotonic clock it prints after the zone, come
after the nineteen characters of the clock and do not change how the text
compares with a `CURRENT_TIMESTAMP`. -/
def goTimeString (zone : Zone) (unix : Nat) : Str :=
  dateTime ((unix : Int) + zone.offset).toNat ++ [' '] ++
    (if zone.offset < 0 then ['-'] else ['+']) ++ twoDigits (zone.offset.natAbs / 3600) ++
    twoDigits (zone.offset.natAbs / 60 % 60) ++ [' '] ++ zone.name

/-- SQLite `CURRENT_TIMESTAMP` at an instant: the clock of UTC. -/
def currentTimestamp (unix : Nat) : Str := dateTime unix

/-- The two texts a statement compares in `expires_at > CURRENT_TIMESTAMP`:
`stored` is the text the driver wrote for the `time.Time` of an instant, and
`current` is the text of `CURRENT_TIMESTAMP` at an instant. -/
structure TimeText where
  stored : Nat → Str
  current : Nat → Str

/-- The texts of a server in a zone: `Time.String()` in that zone against
`CURRENT_TIMESTAMP`. -/
def zoneText (zone : Zone) : TimeText :=
  { stored := goTimeString zone, current := currentTimestamp }

/-! ## backend/services/password_service.go -/

/-- Modelled from the spec: `schema.sql` is not among the sources.  A row of
the `passwords` table has the columns of the persisted schema surface
`secrets(path, group_name, encrypted_value, created_by, updated_by,
timestamps, unique(path, group_name))`; the field names are those of the
struct `models.Password`. -/
structure Password where
  Path : Str
  Value : Str
  GroupName : Str
  CreatedBy : Str
  UpdatedBy : Str
  CreatedAt : Nat
  UpdatedAt : Nat
deriving DecidableEq, Repr

/-- The `passwords` table. -/
abbrev Passwords := List Password

/-- The struct `models.PasswordInfo`. -/
structure PasswordInfo where
  Path : Str
  CreatedBy : Str
  UpdatedBy : Str
  CreatedAt : Nat
  UpdatedAt : Nat
deriving DecidableEq, Repr

/-- Modelled from the spec: the package `shared/crypto` is not among the
sources.  `Encrypt(plaintext)` and `Decrypt(envelope)` each return a string
or an error; both are parameters of the service. -/
structure Cipher where
  Encrypt : Str → Except Str Str
  Decrypt : Str → Except Str Str

/-- The errors `PasswordService` returns:
`insufficient permissions to write to group <g>`,
`insufficient permissions to read from group <g>`,
`password not found`, `failed to encrypt password: <err>` and
`failed to decrypt password: <err>`; and the error of a statement, which it
passes on. -/
inductive ServiceError where
  | insufficientWrite (groupName : Str)
  | insufficientRead (groupName : Str)
  | notFound
  | encryptFailed (err : Str)
  | decryptFailed (err : Str)
  | sql (err : SqlError)
deriving DecidableEq, Repr

/-- The condition `path = ? AND group_name = ?`. -/
def keyIs (path groupName : Str) (r : Password) : Bool :=
  decide (r.Path = path) && decide (r.GroupName = groupName)

/-- The condition `group_name = ? AND path LIKE ?` on a row: the group is
compared first, and `LIKE` is called only on a row of the group. -/
def groupAndLike (groupName pattern : Str) (r : Password) : Except SqlError Bool :=
  if r.GroupName = groupName then sqlLike pattern r.Path else .ok false

/-- A `WHERE` condition evaluated on the rows of the table in their order: the
rows it selects and the rows it does not, or the first error of the condition,
which fails the whole statement. -/
def selectWhere (cond : Password → Except SqlError Bool) :
    Passwords → Except SqlError (Passwords × Passwords)
  | [] => .ok ([], [])
  | r :: rest =>
    match cond r with
    | .error err => .error err
    | .ok selects =>
      match selectWhere cond rest with
      | .error err => .error err
      | .ok (selected, others) =>
        if selects then .ok (r :: selected, others) else .ok (selected, r :: others)

/-- Modelled from the spec: `schema.sql` is not among the sources.
`INSERT OR REPLACE INTO passwords (path, encrypted_value, group_name,
created_by, updated_by, updated_at) VALUES (?, ?, ?, ?, ?, CURRENT_TIMESTAMP)`
under `unique(path, group_name)`: the rows with the same key are deleted and
the new row is inserted, its `created_at` taking the current time. -/
def insertOrReplace (db : Passwords) (path encryptedValue groupName createdBy updatedBy : Str)
    (now : Nat) : Passwords :=
  db.filter (fun r => !keyIs path groupName r) ++
    [{ Path := path, Value := encryptedValue, GroupName := groupName,
       CreatedBy := createdBy, UpdatedBy := updatedBy, CreatedAt := now, UpdatedAt := now }]

/-- `PasswordService.CreatePassword`. -/
def CreatePassword (crypto : Cipher) (now : Nat) (db : Passwords)
    (path value groupName userEmail userGroups : Str) : Except ServiceError Unit × Passwords :=
  if !HasGroupAccess userGroups groupName true then
    (.error (.insufficientWrite groupName), db)
  else
    match crypto.Encrypt value with
    | .error err => (.error (.encryptFailed err), db)
    | .ok encryptedValue =>
      (.ok (), insertOrReplace db path encryptedValue groupName userEmail userEmail now)

/-- `PasswordService.GetPassword`. -/
def GetPassword (crypto : Cipher) (db : Passwords) (path groupName userGroups : Str) :
    Except ServiceError Str :=
  if !HasGroupAccess userGroups groupName false then
    .error (.insufficientRead groupName)
  else
    match db.find? (keyIs path groupName) with
    | none => .error .notFound
    | some r =>
      match crypto.Decrypt r.Value with
      | .error err => .error (.decryptFailed err)
      | .ok value => .ok value

/-- `PasswordService.GetPasswordInfo`. -/
def GetPasswordInfo (db : Passwords) (path groupName userGroups : Str) :
    Except ServiceError PasswordInfo :=
  if !HasGroupAccess userGroups groupName false then
    .error (.insufficientRead groupName)
  else
    match db.find? (keyIs path groupName) with
    | none => .error .notFound
    | some r =>
      .ok { Path := r.Path, CreatedBy := r.CreatedBy, UpdatedBy := r.UpdatedBy,
            CreatedAt := r.CreatedAt, UpdatedAt := r.UpdatedAt }

/-- `PasswordService.UpdatePassword`. -/
def UpdatePassword (crypto : Cipher) (now : Nat) (db : Passwords)
    (path value groupName userEmail userGroups : Str) : Except ServiceError Unit × Passwords :=
  if !HasGroupAccess userGroups groupName true then
    (.error (.insufficientWrite groupName), db)
  else
    let rowExists := db.any (keyIs path groupName)
    if !rowExists then (.error .notFound, db)
    else
      match crypto.Encrypt value with
      | .error err => (.error (.encryptFailed err), db)
      | .ok encryptedValue =>
        (.ok (), db.map fun r =>
          if keyIs path groupName r then
            { r with Value := encryptedValue, UpdatedBy := userEmail, UpdatedAt := now }
          else r)

/-- `PasswordService.folderHasPasswords`: whether
`SELECT COUNT(*) ... WHERE group_name = ? AND path LIKE ?` with the pattern
`folderPath + "/%"` counts a row; true when the statement fails. -/
def folderHasPasswords (db : Passwords) (folderPath groupName : Str) : Bool :=
  match selectWhere (groupAndLike groupName (folderPath ++ ['/', '%'])) db with
  | .error _ => true
  | .ok (selected, _) => decide (selected.length > 0)

/-- The loop `for i := len(pathParts) - 1; i > 0; i--` of
`cleanupEmptyFolders`, with the table passed through; the body only queries. -/
def cleanupEmptyFolders.loop (db : Passwords) (pathParts : List Str) (groupName : Str) :
    Nat → Passwords
  | 0 => db
  | i + 1 =>
    let parentPath := strings.Join (pathParts.take (i + 1)) ['/']
    if parentPath = [] then db
    else if folderHasPasswords db parentPath groupName then db
    else cleanupEmptyFolders.loop db pathParts groupName i

/-- `PasswordService.cleanupEmptyFolders`. -/
def cleanupEmptyFolders (db : Passwords) (deletedPath groupName : Str) : Passwords :=
  let pathParts := strings.Split deletedPath '/'
  if pathParts.length ≤ 1 then db
  else cleanupEmptyFolders.loop db pathParts groupName (pathParts.length - 1)

/-- `PasswordService.DeletePassword`. -/
def DeletePassword (db : Passwords) (path groupName userGroups : Str) :
    Except ServiceError Unit × Passwords :=
  if !HasGroupAccess userGroups groupName true then
    (.error (.insufficientWrite groupName), db)
  else
    let rowsAffected := (db.filter (keyIs path groupName)).length
    let db := db.filter (fun r => !keyIs path groupName r)
    if rowsAffected = 0 then (.error .notFound, db)
    else (.ok (), cleanupEmptyFolders db path groupName)

/-- `PasswordService.ListPasswords`. -/
def ListPasswords (db : Passwords) (groupName pathPrefix userGroups : Str) :
    Except ServiceError (List Str) :=
  if !HasGroupAccess userGroups groupName false then
    .error (.insufficientRead groupName)
  else if pathPrefix ≠ [] then
    match selectWhere (groupAndLike groupName (pathPrefix ++ ['%'])) db with
    | .error err => .error (.sql err)
    | .ok (rows, _) => .ok (orderBy (rows.map (·.Path)))
  else
    .ok (orderBy ((db.filter (fun r => decide (r.GroupName = groupName))).map (·.Path)))

/-- `PasswordService.DeletePasswordRecursive`. -/
def DeletePasswordRecursive (db : Passwords) (pathPrefix groupName userGroups : Str) :
    Except ServiceError Nat × Passwords :=
  if !HasGroupAccess userGroups groupName true then
    (.error (.insufficientWrite groupName), db)
  else
    match selectWhere (groupAndLike groupName (pathPrefix ++ ['%'])) db with
    | .error err => (.error (.sql err), db)
    | .ok (deleted, db') =>
      let rowsAffected := deleted.length
      if rowsAffected > 0 then (.ok rowsAffected, cleanupEmptyFolders db' pathPrefix groupName)
      else (.ok rowsAffected, db')

/-! ### Vocabulary of the specification for the secret store -/

/-- The key `(path, group_name)` of a row. -/
def keyOf (r : Password) : Str × Str := (r.Path, r.GroupName)

/-- A store keyed uniquely by `(path, group)`: no two rows share a key. -/
def UniqueKeys (db : Passwords) : Prop :=
  db.Pairwise (fun a b => keyOf a ≠ keyOf b)

instance (db : Passwords) : Decidable (UniqueKeys db) := by
  unfold UniqueKeys; infer_instance

/-! ## shared/auth/jwt.go -/

/-- One byte in lower-case hexadecimal, as `fmt.Sprintf` prints it under `%x`. -/
def hexByte (b : Nat) : Str :=
  [Nat.digitChar (b / 16 % 16), Nat.digitChar (b % 16)]

/-- `HashToken(token)`: the digest of the token in hexadecimal.  The digest
function `sha256.Sum256` of the Go standard library is the parameter `sum256`,
from a string to its bytes. -/
def HashToken (sum256 : Str → List Nat) (token : Str) : Str :=
  ((sum256 token).map hexByte).flatten

/-! ## backend/services/token_service.go -/

/-- Modelled from the spec: `schema.sql` is not among the sources.  A row of
the `tokens` table has the columns of the persisted schema surface
`revoked_tokens(token_hash unique, user_email, expires_at, revoked)`, under
the names the statements of `token_service.go` use.  `expires_at` is the
instant of the `time.Time` that `StoreToken` binds; the text the column holds
for it is `TimeText.stored` of that instant. -/
structure Token where
  token_hash : Str
  user_email : Str
  expires_at : Nat
  revoked : Bool
deriving DecidableEq, Repr

/-- The `tokens` table. -/
abbrev Tokens := List Token

/-- `TokenService.StoreToken`.  Modelled from the spec: `token_hash` is unique
(`schema.sql` is not among the sources), so the `INSERT` of a hash that is
already stored fails and adds nothing. -/
def StoreToken (sum256 : Str → List Nat) (db : Tokens) (token userEmail : Str)
    (expiresAt : Nat) : Except SqlError Unit × Tokens :=
  let tokenHash := HashToken sum256 token
  if db.any (fun r => decide (r.token_hash = tokenHash)) then (.error .uniqueConstraint, db)
  else
    (.ok (), db ++ [{ token_hash := tokenHash, user_email := userEmail,
                      expires_at := expiresAt, revoked := false }])

/-- `TokenService.IsTokenRevoked`, at the time `now`: the `revoked` column of
the row `WHERE token_hash = ? AND expires_at > CURRENT_TIMESTAMP`, and false
when there is no such row.  The comparison is that of the stored text with
the text of `CURRENT_TIMESTAMP`. -/
def IsTokenRevoked (sum256 : Str → List Nat) (fmt : TimeText) (now : Nat) (db : Tokens)
    (token : Str) : Except SqlError Bool :=
  let tokenHash := HashToken sum256 token
  match db.find? (fun r => decide (r.token_hash = tokenHash) &&
      decide (fmt.stored r.expires_at > fmt.current now)) with
  | none => .ok false
  | some r => .ok r.revoked

/-- `TokenService.RevokeUserTokens`, at the time `now`: `UPDATE tokens SET
revoked = true WHERE user_email = ? AND revoked = false AND expires_at >
CURRENT_TIMESTAMP`, a comparison of texts. -/
def RevokeUserTokens (fmt : TimeText) (now : Nat) (db : Tokens) (userEmail : Str) :
    Except SqlError Unit × Tokens :=
  (.ok (), db.map fun r =>
    if r.user_email = userEmail ∧ r.revoked = false ∧
        fmt.stored r.expires_at > fmt.current now then
      { r with revoked := true }
    else r)

/-- `TokenService.CleanupExpiredTokens`, at the time `now`: `DELETE FROM
tokens WHERE expires_at <= CURRENT_TIMESTAMP`, a comparison of texts. -/
def CleanupExpiredTokens (fmt : TimeText) (now : Nat) (db : Tokens) :
    Except SqlError Unit × Tokens :=
  (.ok (), db.filter (fun r => !decide (fmt.stored r.expires_at ≤ fmt.current now)))

/-! ## backend/services/user_service.go -/

/-- The struct `models.User`, a row of the `users` table. -/
structure User where
  ID : Nat
  Email : Str
  Password : Str
  Role : Str
  Groups : Str
  Enabled : Bool
  CreatedAt : Nat
  UpdatedAt : Nat
deriving DecidableEq, Repr

/-- The `users` table. -/
abbrev Users := List User

/-- The reserved email `"admin@pman.system"` of the default admin. -/
def adminEmail : Str := "admin@pman.system".toList

/-- The errors `UserService` builds with `fmt.Errorf`:
`invalid groups format: <err>`, `cannot delete default admin user`,
`cannot disable default admin user`, `invalid credentials` and
`user account is disabled`; and the errors it passes on: `sql.ErrNoRows` of
a query without a row, the error of `crypto.HashPassword`, and the error of a
statement. -/
inductive UserError where
  | invalidGroupsFormat (err : ParseError)
  | cannotDeleteDefaultAdmin
  | cannotDisableDefaultAdmin
  | invalidCredentials
  | accountDisabled
  | noRows
  | hashPassword (err : Str)
  | sql (err : SqlError)
deriving DecidableEq, Repr

/-- Modelled from the spec: the package `shared/crypto` is not among the
sources.  `HashPassword(password)` returns the hash to store or an error, and
`CheckPasswordHash(password, hash)` tells whether a password matches a stored
hash; both are parameters of the service. -/
structure PasswordHasher where
  HashPassword : Str → Except Str Str
  CheckPasswordHash : Str → Str → Bool

/-- `UserService.DisableUser`, at the time `now`: after the guard on the
reserved email, `UPDATE users SET enabled = false, updated_at =
CURRENT_TIMESTAMP WHERE email = ?` and then
`UPDATE tokens SET revoked = true WHERE user_email = ?`. -/
def DisableUser (now : Nat) (users : Users) (tokens : Tokens) (email : Str) :
    Except UserError Unit × Users × Tokens :=
  if email = adminEmail then (.error .cannotDisableDefaultAdmin, users, tokens)
  else
    let users := users.map fun u =>
      if u.Email = email then { u with Enabled := false, UpdatedAt := now } else u
    let tokens := tokens.map fun r =>
      if r.user_email = email then { r with revoked := true } else r
    (.ok (), users, tokens)

/-- `UserService.GetUserByEmail`: the first row `WHERE email = ?`, or
`sql.ErrNoRows`. -/
def GetUserByEmail (users : Users) (email : Str) : Except UserError User :=
  match users.find? (fun u => decide (u.Email = email)) with
  | none => .error .noRows
  | some user => .ok user

/-- Modelled from the spec: `schema.sql` is not among the sources.  The `id`
an `INSERT INTO users` gives the new row: one more than the largest in the
table. -/
def nextUserID (users : Users) : Nat :=
  (users.map (·.ID)).foldr max 0 + 1

/-- Modelled from the spec: `schema.sql` is not among the sources.
`INSERT INTO users (email, password_hash, role, groups, enabled)` under
`identities(email unique, ...)`: an email already stored makes the statement
fail; otherwise the row is added, its timestamps taking the current time. -/
def insertUser (now : Nat) (users : Users) (email passwordHash role groups : Str)
    (enabled : Bool) : Except SqlError Unit × Users :=
  if users.any (fun u => decide (u.Email = email)) then (.error .uniqueConstraint, users)
  else
    (.ok (), users ++ [{ ID := nextUserID users, Email := email, Password := passwordHash,
                         Role := role, Groups := groups, Enabled := enabled,
                         CreatedAt := now, UpdatedAt := now }])

/-- `UserService.CreateUser`, at the time `now`; `password` is what
`generateRandomPassword()` draws. -/
def CreateUser (hasher : PasswordHasher) (now : Nat) (password : Str) (users : Users)
    (email role groupsStr : Str) : Except UserError Str × Users :=
  match ParseGroups groupsStr with
  | .error err => (.error (.invalidGroupsFormat err), users)
  | .ok _ =>
    match hasher.HashPassword password with
    | .error err => (.error (.hashPassword err), users)
    | .ok hashedPassword =>
      match insertUser now users email hashedPassword role groupsStr true with
      | (Except.error err, users) => (.error (.sql err), users)
      | (Except.ok (), users) => (.ok password, users)

/-- `UserService.UpdateUser`, at the time `now`. -/
def UpdateUser (now : Nat) (users : Users) (email role groupsStr : Str) :
    Except UserError Unit × Users :=
  match ParseGroups groupsStr with
  | .error err => (.error (.invalidGroupsFormat err), users)
  | .ok _ =>
    (.ok (), users.map fun u =>
      if u.Email = email then { u with Role := role, Groups := groupsStr, UpdatedAt := now }
      else u)

/-- `UserService.DeleteUser`. -/
def DeleteUser (users : Users) (email : Str) : Except UserError Unit × Users :=
  if email = adminEmail then (.error .cannotDeleteDefaultAdmin, users)
  else (.ok (), users.filter (fun u => !decide (u.Email = email)))

/-- `UserService.EnableUser`, at the time `now`. -/
def EnableUser (now : Nat) (users : Users) (email : Str) : Except UserError Unit × Users :=
  (.ok (), users.map fun u =>
    if u.Email = email then { u with Enabled := true, UpdatedAt := now } else u)

/-- `UserService.ChangePassword`, at the time `now`. -/
def ChangePassword (hasher : PasswordHasher) (now : Nat) (users : Users)
    (email newPassword : Str) : Except UserError Unit × Users :=
  match hasher.HashPassword newPassword with
  | .error err => (.error (.hashPassword err), users)
  | .ok hashedPassword =>
    (.ok (), users.map fun u =>
      if u.Email = email then { u with Password := hashedPassword, UpdatedAt := now } else u)

/-- `UserService.ValidateLogin`. -/
def ValidateLogin (hasher : PasswordHasher) (users : Users) (email password : Str) :
    Except UserError User :=
  match GetUserByEmail users email with
  | .error err =>
    if err = .noRows then .error .invalidCredentials else .error err
  | .ok user =>
    if !user.Enabled then .error .accountDisabled
    else if !hasher.CheckPasswordHash password user.Password then .error .invalidCredentials
    else .ok user

/-! ## backend/database/database.go -/

/-- The errors `createDefaultAdmin` builds:
`failed to hash default admin password: <err>` and
`failed to create default admin: <err>`. -/
inductive DatabaseError where
  | hashDefaultAdminPassword (err : Str)
  | createDefaultAdmin (err : SqlError)
deriving DecidableEq, Repr

/-- `DB.createDefaultAdmin`, at the time `now`: when no row has the reserved
email, the admin is inserted with the hash of `DefaultPassword`, the role
`admin`, the groups `team1:rw,team2:rw` and `enabled = true`. -/
def createDefaultAdmin (hasher : PasswordHasher) (now : Nat) (users : Users) :
    Except DatabaseError Unit × Users :=
  let count := (users.filter (fun u => decide (u.Email = adminEmail))).length
  if count > 0 then (.ok (), users)
  else
    match hasher.HashPassword "DefaultPassword".toList with
    | .error err => (.error (.hashDefaultAdminPassword err), users)
    | .ok hashedPassword =>
      match insertUser now users adminEmail hashedPassword "admin".toList
          "team1:rw,team2:rw".toList true with
      | (Except.error err, users) => (.error (.createDefaultAdmin err), users)
      | (Except.ok (), users) => (.ok (), users)

/-! ## cli/commands/commands.go -/

/-- Go `strings.HasPrefix(arg, "-")`. -/
def hasDash : Str → Bool
  | '-' :: _ => true
  | _ => false

/-- The body of the first loop of `expandCombinedFlags`: what one argument
appends to `expanded`.  `len(arg)` and `arg[i]` count and read bytes, and
`string(arg[i])` is the character whose code point is that byte. -/
def expandArg (arg : Str) : List Str :=
  if hasDash arg && decide ((bytes arg).length > 2) && decide ((bytes arg).getD 1 0 ≠ 0x2D) then
    ((bytes arg).drop 1).map fun b => ['-', Char.ofNat b]
  else [arg]

/-- The first pass of `expandCombinedFlags`: the slice `expanded`. -/
def expand (args : List Str) : List Str := (args.map expandArg).flatten

/-- The test `arg == "-g" || arg == "--group" || arg == "-s" || arg == "-u" ||
arg == "-p" || arg == "--expire"`. -/
def isValueFlag (arg : Str) : Bool :=
  decide (arg = "-g".toList) || decide (arg = "--group".toList) || decide (arg = "-s".toList) ||
    decide (arg = "-u".toList) || decide (arg = "-p".toList) || decide (arg = "--expire".toList)

/-- The second loop of `expandCombinedFlags` over the tokens still to read,
with `result` and `positional` as built so far. -/
def separate : List Str → List Str → List Str → List Str × List Str
  | [], result, positional => (result, positional)
  | arg :: rest, result, positional =>
    if hasDash arg then
      if isValueFlag arg then
        match rest with
        | next :: rest' =>
          if !hasDash next then separate rest' (result ++ [arg] ++ [next]) positional
          else separate (next :: rest') (result ++ [arg]) positional
        | [] => separate [] (result ++ [arg]) positional
      else separate rest (result ++ [arg]) positional
    else separate rest result (positional ++ [arg])

/-- `expandCombinedFlags(args)`. -/
def expandCombinedFlags (args : List Str) : List Str :=
  (separate (expand args) [] []).1 ++ (separate (expand args) [] []).2

/-- The slice `result` as the second loop leaves it. -/
def flagsOf (tokens : List Str) : List Str := (separate tokens [] []).1

/-- The slice `positional` as the second loop leaves it. -/
def positionalOf (tokens : List Str) : List Str := (separate tokens [] []).2

/-! ### Vocabulary of the specification for command-line arguments -/

/-- The expansion of one argument in the words of the specification: an
argument `-c1c2..cn` with `n ≥ 2` and `c1` not `-` becomes `-c1`, .., `-cn`;
any other argument is kept whole. -/
def specExpandArg : Str → List Str
  | c0 :: c1 :: c2 :: cs =>
    if c0 = '-' ∧ c1 ≠ '-' then (c1 :: c2 :: cs).map fun c => ['-', c]
    else [c0 :: c1 :: c2 :: cs]
  | arg => [arg]

/-- The arguments after expansion, in the words of the specification. -/
def specExpand (args : List Str) : List Str := (args.map specExpandArg).flatten

/-- Whether the token after a value-taking flag is its value: there is one
and it does not begin with `-`. -/
def takesValue : List Str → Bool
  | next :: _ => !hasDash next
  | [] => false

/-- Each token paired with the token before it; `prev` stands before the
first. -/
def withPrevious (prev : Option Str) (tokens : List Str) : List (Option Str × Str) :=
  (prev :: tokens.map some).zip tokens

/-- Whether a token, given the token before it, belongs to the flags in the
words of the specification: it begins with `-`, or it immediately follows a
value-taking flag, whose value it then is. -/
def withFlags (p : Option Str × Str) : Bool :=
  hasDash p.2 ||
    match p.1 with
    | some f => isValueFlag f
    | none => false

/-- The flags with their values, in the words of the specification: the
tokens that belong to the flags, in their order. -/
def specFlags (tokens : List Str) : List Str :=
  ((withPrevious none tokens).filter withFlags).map (·.2)

/-- The remaining positional arguments, in the words of the specification:
the tokens that do not belong to the flags, in their order. -/
def specPositional (tokens : List Str) : List Str :=
  ((withPrevious none tokens).filter (fun p => !withFlags p)).map (·.2)

/-- An argument of ASCII characters only. -/
def IsAscii (arg : Str) : Prop := ∀ c ∈ arg, c.toNat < 0x80

instance (arg : Str) : Decidable (IsAscii arg) := by
  unfold IsAscii; infer_instance

/-! ## cli/tree/tree.go -/

/-- The struct `Node`.  The map `Children` is the list of its entries, key and
node, in the order they were added. -/
inductive Node where
  | mk (Name : Str) (IsFolder : Bool) (Children : List (Str × Node)) : Node

/-- The field `Name`. -/
def Node.Name : Node → Str
  | .mk name _ _ => name

/-- The field `IsFolder`. -/
def Node.IsFolder : Node → Bool
  | .mk _ isFolder _ => isFolder

/-- The field `Children`. -/
def Node.Children : Node → List (Str × Node)
  | .mk _ _ children => children

/-- `NewNode(name, isFolder)`. -/
def NewNode (name : Str) (isFolder : Bool) : Node := .mk name isFolder []

/-- The map read `children[key]`; `none` stands for `nil`. -/
def mapGet (children : List (Str × Node)) (key : Str) : Option Node :=
  (children.find? (fun e => decide (e.1 = key))).map (·.2)

/-- The map write `children[key] = node`. -/
def mapSet (children : List (Str × Node)) (key : Str) (node : Node) : List (Str × Node) :=
  if children.any (fun e => decide (e.1 = key)) then
    children.map fun e => if e.1 = key then (key, node) else e
  else children ++ [(key, node)]

/-- The loop `for i, part := range parts` of `BuildTree` from the node
`current`, over the parts still to read with their indices; `len` is
`len(parts)`.  The result is `current` as the loop leaves it. -/
def BuildTree.insert (len : Nat) : List (Nat × Str) → Node → Node
  | [], current => current
  | (i, part) :: rest, current =>
    if part = [] then BuildTree.insert len rest current
    else
      let isFolder := decide (i < len - 1)
      let child :=
        match mapGet current.Children part with
        | none => NewNode part isFolder
        | some node => node
      .mk current.Name current.IsFolder
        (mapSet current.Children part (BuildTree.insert len rest child))

/-- `BuildTree(paths, rootName)`. -/
def BuildTree (paths : List Str) (rootName : Str) : Node :=
  paths.foldl
    (fun root path =>
      BuildTree.insert (strings.Split path '/').length (strings.Split path '/').enum root)
    (NewNode rootName true)

/-! ### Vocabulary of the specification for the tree view -/

/-- The node reached from a node by a sequence of names, if there is one. -/
def Node.descend : Node → List Str → Option Node
  | node, [] => some node
  | node, name :: names =>
    match mapGet node.Children name with
    | none => none
    | some child => child.descend names

/-- The non-empty `/`-separated segments of a path. -/
def segments (path : Str) : List Str :=
  (strings.Split path '/').filter (fun part => decide (part ≠ []))

/-! ### Vocabulary of the specification for reachable states -/

/-- The state the services share: the `users` and the `tokens` table. -/
structure State where
  users : Users
  tokens : Tokens
deriving DecidableEq, Repr

/-- One call that changes the state, with its arguments.  `login` is
`ValidateLogin` followed, when it returns a user, by `StoreToken` of a token
for that user, as in `Handlers.Login`. -/
inductive Op where
  | login (email password token : Str) (expiresAt : Nat)
  | createUser (now : Nat) (password email role groups : Str)
  | updateUser (now : Nat) (email role groups : Str)
  | deleteUser (email : Str)
  | enableUser (now : Nat) (email : Str)
  | disableUser (now : Nat) (email : Str)
  | changePassword (now : Nat) (email newPassword : Str)
  | revokeUserTokens (now : Nat) (email : Str)
  | cleanupExpiredTokens (now : Nat)
deriving DecidableEq, Repr

/-- The state a call leaves. -/
def Op.apply (hasher : PasswordHasher) (sum256 : Str → List Nat) (fmt : TimeText)
    (s : State) : Op → State
  | .login email password token expiresAt =>
    match ValidateLogin hasher s.users email password with
    | .error _ => s
    | .ok user => { s with tokens := (StoreToken sum256 s.tokens token user.Email expiresAt).2 }
  | .createUser now password email role groups =>
    { s with users := (CreateUser hasher now password s.users email role groups).2 }
  | .updateUser now email role groups =>
    { s with users := (UpdateUser now s.users email role groups).2 }
  | .deleteUser email => { s with users := (DeleteUser s.users email).2 }
  | .enableUser now email => { s with users := (EnableUser now s.users email).2 }
  | .disableUser now email =>
    { users := (DisableUser now s.users s.tokens email).2.1,
      tokens := (DisableUser now s.users s.tokens email).2.2 }
  | .changePassword now email newPassword =>
    { s with users := (ChangePassword hasher now s.users email newPassword).2 }
  | .revokeUserTokens now email =>
    { s with tokens := (RevokeUserTokens fmt now s.tokens email).2 }
  | .cleanupExpiredTokens now =>
    { s with tokens := (CleanupExpiredTokens fmt now s.tokens).2 }

/-- The state after a sequence of calls. -/
def run (hasher : PasswordHasher) (sum256 : Str → List Nat) (fmt : TimeText) (s : State)
    (ops : List Op) : State :=
  ops.foldl (Op.apply hasher sum256 fmt) s

/-- The bootstrap state: the default admin created in an empty `users` table,
and no token. -/
def bootstrap (hasher : PasswordHasher) (now : Nat) : State :=
  { users := (createDefaultAdmin hasher now []).2, tokens := [] }

/-- Every stored identity has a groups string that `ParseGroups` accepts. -/
def GroupsParse (users : Users) : Prop :=
  ∀ u ∈ users, ∃ groups, ParseGroups u.Groups = .ok groups

/-- Every token row whose `user_email` belongs to an identity with
`enabled = false` has `revoked = true`. -/
def DisabledRevoked (s : State) : Prop :=
  ∀ t ∈ s.tokens, ∀ u ∈ s.users, u.Email = t.user_email → u.Enabled = false →
    t.revoked = true

/-- No two identities share an email. -/
def UniqueEmails (users : Users) : Prop :=
  users.Pairwise (fun a b => a.Email ≠ b.Email)

/-- No two token rows share a hash. -/
def UniqueHashes (tokens : Tokens) : Prop :=
  tokens.Pairwise (fun a b => a.token_hash ≠ b.token_hash)

instance (users : Users) : Decidable (UniqueEmails users) := by
  unfold UniqueEmails; infer_instance

instance (tokens : Tokens) : Decidable (UniqueHashes tokens) := by
  unfold UniqueHashes; infer_instance

/-! ## backend/handlers/user_handlers.go -/

/-- What `Handlers.DisableUser` answers: the error of the service, the message
`Failed to revoke user tokens`, or `User disabled successfully`. -/
inductive DisableUserResponse where
  | serviceError (err : UserError)
  | failedToRevoke
  | disabled
deriving DecidableEq, Repr

/-- `Handlers.DisableUser`, at the time `now`: `userService.DisableUser` and,
when it returns no error, `tokenService.RevokeUserTokens`. -/
def Handlers.DisableUser (fmt : TimeText) (now : Nat) (users : Users) (tokens : Tokens)
    (email : Str) : DisableUserResponse × Users × Tokens :=
  match Pman.DisableUser now users tokens email with
  | (Except.error err, users, tokens) => (.serviceError err, users, tokens)
  | (Except.ok (), users, tokens) =>
    match RevokeUserTokens fmt now tokens email with
    | (Except.error _, tokens) => (.failedToRevoke, users, tokens)
    | (Except.ok (), tokens) => (.disabled, users, tokens)

/-! ### Example data -/

/-- A secret row at `path` in `groupName`, written by `admin@pman.system` at
time 0. -/
def secretAt (path groupName : Str) : Password :=
  { Path := path, Value := "envelope".toList, GroupName := groupName,
    CreatedBy := "admin@pman.system".toList, UpdatedBy := "admin@pman.system".toList,
    CreatedAt := 0, UpdatedAt := 0 }

/-- The four secrets `team/db`, `team/db/user`, `team/db/pass` and `team/dbx`
of group `team1`. -/
def fourSecrets : Passwords :=
  [secretAt "team/db".toList "team1".toList, secretAt "team/db/user".toList "team1".toList,
   secretAt "team/db/pass".toList "team1".toList, secretAt "team/dbx".toList "team1".toList]

/-- A cipher for examples: it reverses the text and never fails. -/
def reverseCipher : Cipher :=
  { Encrypt := fun s => .ok s.reverse, Decrypt := fun s => .ok s.reverse }

/-- A cipher for examples: the envelope of a text is the text itself. -/
def identityCipher : Cipher :=
  { Encrypt := fun s => .ok s, Decrypt := fun s => .ok s }

/-- The three secrets `b/x`, `a/y` and `a/z` of group `team1`, in that order,
and one secret of group `team2`. -/
def threeSecrets : Passwords :=
  [secretAt "b/x".toList "team1".toList, secretAt "a/y".toList "team1".toList,
   secretAt "zz".toList "team2".toList, secretAt "a/z".toList "team1".toList]

/-- A digest for examples: the code points of the text, reduced to bytes. -/
def exampleSum256 (s : Str) : List Nat := s.map fun c => c.toNat % 256

/-- A token table for examples: one live token of `bob@pman.system` and one of
`eve@pman.system`. -/
def twoTokens : Tokens :=
  [{ token_hash := "aa".toList, user_email := "bob@pman.system".toList,
     expires_at := 100, revoked := false },
   { token_hash := "bb".toList, user_email := "eve@pman.system".toList,
     expires_at := 100, revoked := false }]

/-- A user table for examples: the default admin and `bob@pman.system`. -/
def twoUsers : Users :=
  [{ ID := 1, Email := adminEmail, Password := "hash1".toList, Role := "admin".toList,
     Groups := "team1:rw,team2:rw".toList, Enabled := true, CreatedAt := 0, UpdatedAt := 0 },
   { ID := 2, Email := "bob@pman.system".toList, Password := "hash2".toList,
     Role := "user".toList, Groups := "team1:ro".toList, Enabled := true,
     CreatedAt := 0, UpdatedAt := 0 }]

/-- A password hasher for examples: the hash is the password reversed. -/
def reverseHasher : PasswordHasher :=
  { HashPassword := fun s => .ok s.reverse,
    CheckPasswordHash := fun password hash => decide (password.reverse = hash) }

/-- A sequence of calls for examples: `bob` is created, logs in with the
token `tok` that expires at 50, gets new groups, and is disabled. -/
def bobScenario : List Op :=
  [.createUser 1 "pw".toList "bob".toList "user".toList "team1:ro".toList,
   .login "bob".toList "pw".toList "tok".toList 50,
   .updateUser 2 "bob".toList "user".toList "team1:rw".toList,
   .disableUser 3 "bob".toList]

/-- A zone for examples: Eastern Standard Time, five hours behind UTC. -/
def est : Zone := { offset := -18000, name := "EST".toList }

/-- A zone for examples: Central European Time, one hour ahead of UTC. -/
def cet : Zone := { offset := 3600, name := "CET".toList }

/-- An instant for examples: 2026-11-04 10:00:00 UTC, which is 05:00:00 in
`est`. -/
def tenUTC : Nat := 1793786400

/-- A token table for examples: the row of the token `tok` of
`bob@pman.system`, not revoked, which expires one hour after `tenUTC`. -/
def hourToken : Tokens :=
  [{ token_hash := "746f6b".toList, user_email := "bob@pman.system".toList,
     expires_at := tenUTC + 3600, revoked := false }]

/-- A sequence of calls for examples: `bob` is created at `tenUTC`, logs in
with the token `tok` that expires one day later, and is disabled after one
minute. -/
def bobDay : List Op :=
  [.createUser tenUTC "pw".toList "bob".toList "user".toList "team1:ro".toList,
   .login "bob".toList "pw".toList "tok".toList (tenUTC + 86400),
   .disableUser (tenUTC + 60) "bob".toList]

/-! ## Lemmas: ParseGroups -/

theorem ParseGroups.loop_blank (e : Str) (rest : List Str) (acc : List GroupAccess)
    (h : strings.TrimSpace e = []) :
    ParseGroups.loop (e :: rest) acc = ParseGroups.loop rest acc := by
  simp [ParseGroups.loop, h]

theorem ParseGroups.loop_malformed (e : Str) (rest : List Str) (acc : List GroupAccess)
    (h : Malformed e) : ∃ err, ParseGroups.loop (e :: rest) acc = .error err := by
  obtain ⟨hne, hbad⟩ := h
  unfold ParseGroups.loop
  simp only [hne, if_false]
  rcases hs : strings.Split (strings.TrimSpace e) ':' with _ | ⟨g, _ | ⟨p, _ | ⟨q, r⟩⟩⟩
  · exact ⟨_, rfl⟩
  · exact ⟨_, rfl⟩
  · rcases hbad with hlen | hperm
    · simp [hs] at hlen
    · have hp : entryPermission (strings.TrimSpace e) = strings.TrimSpace p := by
        simp [entryPermission, hs]
      rw [hp] at hperm
      exact ⟨_, if_pos hperm⟩
  · exact ⟨_, rfl⟩

theorem ParseGroups.loop_wellformed (e : Str) (rest : List Str) (acc : List GroupAccess)
    (hne : strings.TrimSpace e ≠ []) (h : ¬ Malformed e) :
    ParseGroups.loop (e :: rest) acc =
      ParseGroups.loop rest (acc ++ [entryGrant (strings.TrimSpace e)]) := by
  have hgood : (strings.Split (strings.TrimSpace e) ':').length = 2 ∧
      (entryPermission (strings.TrimSpace e) = tokenRO ∨
        entryPermission (strings.TrimSpace e) = tokenRW) := by
    unfold Malformed at h
    by_contra hc
    apply h
    refine ⟨hne, ?_⟩
    by_cases hl : (strings.Split (strings.TrimSpace e) ':').length = 2
    · right
      constructor
      · intro h1; exact hc ⟨hl, Or.inl h1⟩
      · intro h2; exact hc ⟨hl, Or.inr h2⟩
    · left; exact hl
  obtain ⟨hlen, hperm⟩ := hgood
  rw [ParseGroups.loop]
  simp only [hne, if_false]
  rcases hs : strings.Split (strings.TrimSpace e) ':' with _ | ⟨g, _ | ⟨p, _ | ⟨q, r⟩⟩⟩
  · simp [hs] at hlen
  · simp [hs] at hlen
  · have hp : entryPermission (strings.TrimSpace e) = strings.TrimSpace p := by
      simp [entryPermission, hs]
    have hn : entryName (strings.TrimSpace e) = strings.TrimSpace g := by
      simp [entryName, hs]
    rw [hp] at hperm
    have : ¬ (strings.TrimSpace p ≠ tokenRO ∧ strings.TrimSpace p ≠ tokenRW) := by
      rintro ⟨h1, h2⟩
      rcases hperm with h | h
      · exact h1 h
      · exact h2 h
    simp only [entryGrant, hp, hn]
    exact if_neg this
  · simp [hs] at hlen

theorem ParseGroups.loop_error_iff (parts : List Str) (acc : List GroupAccess) :
    (∃ err, ParseGroups.loop parts acc = .error err) ↔ ∃ e ∈ parts, Malformed e := by
  induction parts generalizing acc with
  | nil => simp [ParseGroups.loop]
  | cons e rest ih =>
    by_cases hb : strings.TrimSpace e = []
    · rw [ParseGroups.loop_blank e rest acc hb, ih]
      have : ¬ Malformed e := fun h => h.1 hb
      simp [this]
    · by_cases hm : Malformed e
      · constructor
        · intro _; exact ⟨e, List.mem_cons_self _ _, hm⟩
        · intro _; exact ParseGroups.loop_malformed e rest acc hm
      · rw [ParseGroups.loop_wellformed e rest acc hb hm, ih]
        simp [hm]

theorem ParseGroups.loop_ok (parts : List Str) (acc : List GroupAccess)
    (h : ∀ e ∈ parts, ¬ Malformed e) :
    ParseGroups.loop parts acc = .ok (acc ++ (liveEntries parts).map entryGrant) := by
  induction parts generalizing acc with
  | nil => simp [ParseGroups.loop, liveEntries]
  | cons e rest ih =>
    have hrest : ∀ x ∈ rest, ¬ Malformed x := fun x hx => h x (List.mem_cons_of_mem _ hx)
    by_cases hb : strings.TrimSpace e = []
    · rw [ParseGroups.loop_blank e rest acc hb, ih acc hrest]
      simp [liveEntries, hb]
    · rw [ParseGroups.loop_wellformed e rest acc hb (h e (List.mem_cons_self _ _)),
        ih _ hrest]
      simp [liveEntries, hb]

theorem ParseGroups_eq_loop (groupsStr : Str) :
    ParseGroups groupsStr = ParseGroups.loop (entries groupsStr) [] := by
  unfold ParseGroups entries
  split
  · next h => subst h; rfl
  · rfl

theorem ParseGroups_error_iff (groupsStr : Str) :
    (∃ err, ParseGroups groupsStr = .error err) ↔ ∃ e ∈ entries groupsStr, Malformed e := by
  rw [ParseGroups_eq_loop, ParseGroups.loop_error_iff]

theorem ParseGroups_ok_eq (groupsStr : Str) (groups : List GroupAccess)
    (h : ParseGroups groupsStr = .ok groups) :
    groups = (liveEntries (entries groupsStr)).map entryGrant := by
  have hno : ∀ e ∈ entries groupsStr, ¬ Malformed e := by
    intro e he hm
    obtain ⟨err, herr⟩ := (ParseGroups_error_iff groupsStr).2 ⟨e, he, hm⟩
    rw [herr] at h
    cases h
  rw [ParseGroups_eq_loop, ParseGroups.loop_ok _ _ hno] at h
  simpa using (Except.ok.inj h).symm

/-! ## Lemmas: HasGroupAccess -/

theorem HasGroupAccess.loop_eq_find (requiredGroup : Str) (requireWrite : Bool)
    (groups : List GroupAccess) :
    HasGroupAccess.loop requiredGroup requireWrite groups =
      match groups.find? (fun y => decide (y.GroupName = requiredGroup)) with
      | none => false
      | some x => if requireWrite then decide (x.Permission = tokenRW) else true := by
  induction groups with
  | nil => rfl
  | cons x rest ih =>
    by_cases hx : x.GroupName = requiredGroup
    · simp [HasGroupAccess.loop, List.find?, hx]
    · simp [HasGroupAccess.loop, List.find?, hx, ih]

theorem HasGroupAccess_of_ok (userGroups requiredGroup : Str) (requireWrite : Bool)
    (groups : List GroupAccess) (h : ParseGroups userGroups = .ok groups) :
    HasGroupAccess userGroups requiredGroup requireWrite =
      HasGroupAccess.loop requiredGroup requireWrite groups := by
  simp [HasGroupAccess, h]

theorem HasGroupAccess_of_error (userGroups requiredGroup : Str) (requireWrite : Bool)
    (err : ParseError) (h : ParseGroups userGroups = .error err) :
    HasGroupAccess userGroups requiredGroup requireWrite = false := by
  simp [HasGroupAccess, h]

/-! ## Lemmas: SQLite and the password service -/

theorem patternCompare.anySuffix_of_suffix (rest : Str → Bool) (pre suf : Str)
    (h : rest suf = true) : patternCompare.anySuffix rest (pre ++ suf) = true := by
  induction pre with
  | nil =>
    cases suf with
    | nil => simpa [patternCompare.anySuffix] using h
    | cons c s => simp [patternCompare.anySuffix, h]
  | cons c pre ih => simp [patternCompare.anySuffix, ih]

/-- A text matches the pattern made of one of its prefixes followed by `%`. -/
theorem patternCompare_prefix (p t : Str) : patternCompare (p ++ ['%']) (p ++ t) = true := by
  induction p with
  | nil =>
    have := patternCompare.anySuffix_of_suffix (patternCompare []) t [] rfl
    simpa [patternCompare] using this
  | cons c p ih =>
    by_cases hc : c = '%'
    · subst hc
      have := patternCompare.anySuffix_of_suffix (patternCompare (p ++ ['%'])) ['%'] (p ++ t) ih
      simpa [patternCompare] using this
    · simp [patternCompare, hc, ih]

/-- A statement whose `LIKE` pattern is over the limit fails once the table
holds a row of the group. -/
theorem selectWhere_pattern_too_complex (db : Passwords) (groupName pattern : Str)
    (hlong : (bytes pattern).length > 50000) (hrow : ∃ r ∈ db, r.GroupName = groupName) :
    selectWhere (groupAndLike groupName pattern) db = .error .likePatternTooComplex := by
  induction db with
  | nil =>
    obtain ⟨r, hr, _⟩ := hrow
    cases hr
  | cons r rest ih =>
    by_cases hg : r.GroupName = groupName
    · simp [selectWhere, groupAndLike, sqlLike, hg, hlong]
    · have hrest : ∃ x ∈ rest, x.GroupName = groupName := by
        obtain ⟨x, hx, hxg⟩ := hrow
        rcases List.mem_cons.1 hx with rfl | hx
        · exact absurd hxg hg
        · exact ⟨x, hx, hxg⟩
      simp [selectWhere, groupAndLike, hg, ih hrest]

theorem cleanupEmptyFolders.loop_eq (db : Passwords) (pathParts : List Str) (groupName : Str)
    (i : Nat) : cleanupEmptyFolders.loop db pathParts groupName i = db := by
  induction i with
  | zero => rfl
  | succ i ih =>
    simp only [cleanupEmptyFolders.loop]
    split
    · rfl
    · split
      · rfl
      · exact ih

/-- Folder cleanup only queries: the table it leaves is the table it found. -/
theorem cleanupEmptyFolders_eq (db : Passwords) (deletedPath groupName : Str) :
    cleanupEmptyFolders db deletedPath groupName = db := by
  simp only [cleanupEmptyFolders]
  split
  · rfl
  · exact cleanupEmptyFolders.loop_eq _ _ _ _

/-! ## Lemmas: writes and reads of the secret store -/

theorem HasGroupAccess_read_of_write (userGroups groupName : Str)
    (h : HasGroupAccess userGroups groupName true = true) :
    HasGroupAccess userGroups groupName false = true := by
  rcases hp : ParseGroups userGroups with err | groups
  · rw [HasGroupAccess_of_error userGroups groupName true err hp] at h
    cases h
  · rw [HasGroupAccess_of_ok userGroups groupName true groups hp,
      HasGroupAccess.loop_eq_find] at h
    rw [HasGroupAccess_of_ok userGroups groupName false groups hp,
      HasGroupAccess.loop_eq_find]
    cases hf : groups.find? (fun y => decide (y.GroupName = groupName)) with
    | none => rw [hf] at h; cases h
    | some x => rfl

theorem keyIs_iff (path groupName : Str) (r : Password) :
    keyIs path groupName r = true ↔ r.Path = path ∧ r.GroupName = groupName := by
  simp [keyIs]

theorem keyIs_eq_false_iff (path groupName : Str) (r : Password) :
    keyIs path groupName r = false ↔ ¬ (r.Path = path ∧ r.GroupName = groupName) := by
  rw [← keyIs_iff, Bool.not_eq_true]

theorem CreatePassword_authorized (crypto : Cipher) (now : Nat) (db : Passwords)
    (path value groupName userEmail userGroups enc : Str)
    (haccess : HasGroupAccess userGroups groupName true = true)
    (henc : crypto.Encrypt value = .ok enc) :
    CreatePassword crypto now db path value groupName userEmail userGroups =
      (.ok (), insertOrReplace db path enc groupName userEmail userEmail now) := by
  simp [CreatePassword, haccess, henc]

theorem CreatePassword_ok_inv (crypto : Cipher) (now : Nat) (db : Passwords)
    (path value groupName userEmail userGroups : Str)
    (hok : (CreatePassword crypto now db path value groupName userEmail userGroups).1 = .ok ()) :
    ∃ enc, crypto.Encrypt value = .ok enc ∧
      (CreatePassword crypto now db path value groupName userEmail userGroups).2 =
        insertOrReplace db path enc groupName userEmail userEmail now := by
  unfold CreatePassword at hok ⊢
  split at hok
  · cases hok
  · rcases henc : crypto.Encrypt value with err | enc
    · simp [henc] at hok
    · refine ⟨enc, rfl, ?_⟩
      simp [*]

theorem insertOrReplace_filter_key (db : Passwords)
    (path enc groupName createdBy updatedBy : Str) (now : Nat) :
    (insertOrReplace db path enc groupName createdBy updatedBy now).filter
        (keyIs path groupName) =
      [{ Path := path, Value := enc, GroupName := groupName, CreatedBy := createdBy,
         UpdatedBy := updatedBy, CreatedAt := now, UpdatedAt := now }] := by
  simp [insertOrReplace, List.filter_append, List.filter_filter, keyIs]

theorem insertOrReplace_filter_other (db : Passwords)
    (path enc groupName createdBy updatedBy : Str) (now : Nat) :
    (insertOrReplace db path enc groupName createdBy updatedBy now).filter
        (fun r => !keyIs path groupName r) =
      db.filter (fun r => !keyIs path groupName r) := by
  simp [insertOrReplace, List.filter_append, List.filter_filter, keyIs]

theorem UniqueKeys.filter_key_length_le (db : Passwords) (h : UniqueKeys db)
    (path groupName : Str) : (db.filter (keyIs path groupName)).length ≤ 1 := by
  induction db with
  | nil => simp
  | cons a rest ih =>
    obtain ⟨ha, hrest⟩ := List.pairwise_cons.1 h
    by_cases hk : keyIs path groupName a = true
    · have hnone : rest.filter (keyIs path groupName) = [] := by
        rw [List.filter_eq_nil_iff]
        intro b hb hkb
        apply ha b hb
        obtain ⟨h1, h2⟩ := (keyIs_iff _ _ _).1 hk
        obtain ⟨h3, h4⟩ := (keyIs_iff _ _ _).1 hkb
        simp [keyOf, h1, h2, h3, h4]
      simp [List.filter_cons, hk, hnone]
    · simpa [List.filter_cons, hk] using ih hrest

theorem UniqueKeys.filter_key_length (db : Passwords) (h : UniqueKeys db)
    (path groupName : Str) (hrow : ∃ r ∈ db, r.Path = path ∧ r.GroupName = groupName) :
    (db.filter (keyIs path groupName)).length = 1 := by
  have hle := UniqueKeys.filter_key_length_le db h path groupName
  obtain ⟨r, hr, hk⟩ := hrow
  have hmem : r ∈ db.filter (keyIs path groupName) :=
    List.mem_filter.2 ⟨hr, (keyIs_iff _ _ _).2 hk⟩
  have hpos : 0 < (db.filter (keyIs path groupName)).length := List.length_pos_of_mem hmem
  omega

theorem length_filter_other (db : Passwords) (path groupName : Str) :
    (db.filter (fun r => !keyIs path groupName r)).length +
      (db.filter (keyIs path groupName)).length = db.length := by
  induction db with
  | nil => rfl
  | cons a rest ih =>
    by_cases hk : keyIs path groupName a = true
    · simp [List.filter_cons, hk]
      omega
    · simp [List.filter_cons, hk]
      omega

theorem UpdatePassword_ok_inv (crypto : Cipher) (now : Nat) (db : Passwords)
    (path value groupName userEmail userGroups : Str)
    (hok : (UpdatePassword crypto now db path value groupName userEmail userGroups).1 = .ok ()) :
    ∃ enc, crypto.Encrypt value = .ok enc ∧ db.any (keyIs path groupName) = true ∧
      (UpdatePassword crypto now db path value groupName userEmail userGroups).2 =
        db.map fun r =>
          if keyIs path groupName r then
            { r with Value := enc, UpdatedBy := userEmail, UpdatedAt := now }
          else r := by
  unfold UpdatePassword at hok ⊢
  split at hok
  · cases hok
  · rcases hany : db.any (keyIs path groupName) with _ | _
    · simp [hany] at hok
    · rcases henc : crypto.Encrypt value with err | enc
      · simp [hany, henc] at hok
      · refine ⟨enc, rfl, rfl, ?_⟩
        simp [*]

theorem DeletePassword_authorized (db : Passwords) (path groupName userGroups : Str)
    (haccess : HasGroupAccess userGroups groupName true = true) :
    DeletePassword db path groupName userGroups =
      if (db.filter (keyIs path groupName)).length = 0 then
        (.error .notFound, db.filter (fun r => !keyIs path groupName r))
      else (.ok (), db.filter (fun r => !keyIs path groupName r)) := by
  simp only [DeletePassword, haccess, Bool.not_true, cleanupEmptyFolders_eq]
  simp

/-! ## Lemmas: token and user services -/

theorem StoreToken_fresh (sum256 : Str → List Nat) (db : Tokens) (token userEmail : Str)
    (expiresAt : Nat) (hfresh : ∀ r ∈ db, r.token_hash ≠ HashToken sum256 token) :
    StoreToken sum256 db token userEmail expiresAt =
      (.ok (), db ++ [{ token_hash := HashToken sum256 token, user_email := userEmail,
                        expires_at := expiresAt, revoked := false }]) := by
  have hany : db.any (fun r => decide (r.token_hash = HashToken sum256 token)) = false := by
    rw [List.any_eq_false]
    intro r hr
    simpa using hfresh r hr
  simp [StoreToken, hany]

theorem StoreToken_stored (sum256 : Str → List Nat) (db : Tokens) (token userEmail : Str)
    (expiresAt : Nat) (hstored : ∃ r ∈ db, r.token_hash = HashToken sum256 token) :
    StoreToken sum256 db token userEmail expiresAt = (.error .uniqueConstraint, db) := by
  have hany : db.any (fun r => decide (r.token_hash = HashToken sum256 token)) = true := by
    rw [List.any_eq_true]
    obtain ⟨r, hr, hh⟩ := hstored
    exact ⟨r, hr, by simpa using hh⟩
  simp [StoreToken, hany]

theorem StoreToken_ok_inv (sum256 : Str → List Nat) (db : Tokens) (token userEmail : Str)
    (expiresAt : Nat) (hok : (StoreToken sum256 db token userEmail expiresAt).1 = .ok ()) :
    ∀ r ∈ db, r.token_hash ≠ HashToken sum256 token := by
  intro r hr hh
  rw [StoreToken_stored sum256 db token userEmail expiresAt ⟨r, hr, hh⟩] at hok
  cases hok

theorem IsTokenRevoked_of_absent (sum256 : Str → List Nat) (fmt : TimeText) (now : Nat)
    (db : Tokens) (token : Str) (habsent : ∀ r ∈ db, r.token_hash ≠ HashToken sum256 token) :
    IsTokenRevoked sum256 fmt now db token = .ok false := by
  have hnone : db.find? (fun r => decide (r.token_hash = HashToken sum256 token) &&
      decide (fmt.stored r.expires_at > fmt.current now)) = none := by
    rw [List.find?_eq_none]
    intro r hr
    simp [habsent r hr]
  simp [IsTokenRevoked, hnone]

theorem RevokeUserTokens_of_revoked (fmt : TimeText) (now : Nat) (db : Tokens)
    (userEmail : Str) (h : ∀ r ∈ db, r.user_email = userEmail → r.revoked = true) :
    RevokeUserTokens fmt now db userEmail = (.ok (), db) := by
  unfold RevokeUserTokens
  congr 1
  conv_rhs => rw [← List.map_id db]
  apply List.map_congr_left
  intro r hr
  by_cases he : r.user_email = userEmail
  · simp [he, h r hr he]
  · simp [he]

theorem DisableUser_other (now : Nat) (users : Users) (tokens : Tokens) (email : Str)
    (hne : email ≠ adminEmail) :
    DisableUser now users tokens email =
      (.ok (),
        users.map (fun u =>
          if u.Email = email then { u with Enabled := false, UpdatedAt := now } else u),
        tokens.map (fun r => if r.user_email = email then { r with revoked := true } else r)) := by
  simp [DisableUser, hne]

theorem DisableUser_tokens_revoked (tokens : Tokens) (email : Str) :
    ∀ r ∈ tokens.map (fun r => if r.user_email = email then { r with revoked := true } else r),
      r.user_email = email → r.revoked = true := by
  intro r hr he
  obtain ⟨r0, _, rfl⟩ := List.mem_map.1 hr
  by_cases h0 : r0.user_email = email
  · simp [h0]
  · simp only [h0, if_false] at he

/-! ## Lemmas: identities -/

theorem DeleteUser_mem (users : Users) (email : Str) (u : User) (hu : u ∈ users)
    (hadmin : u.Email = adminEmail) : u ∈ (DeleteUser users email).2 := by
  unfold DeleteUser
  split
  · exact hu
  · next hne =>
    refine List.mem_filter.2 ⟨hu, ?_⟩
    have : u.Email ≠ email := fun h => hne (h ▸ hadmin)
    simp [this]

theorem DeleteUser_foldl_mem (emails : List Str) (users : Users) (u : User) (hu : u ∈ users)
    (hadmin : u.Email = adminEmail) :
    u ∈ emails.foldl (fun us e => (DeleteUser us e).2) users := by
  induction emails generalizing users with
  | nil => exact hu
  | cons e rest ih => exact ih _ (DeleteUser_mem users e u hu hadmin)

theorem insertUser_users (now : Nat) (users : Users) (email passwordHash role groups : Str)
    (enabled : Bool) :
    ((insertUser now users email passwordHash role groups enabled).1 = .error .uniqueConstraint ∧
        (insertUser now users email passwordHash role groups enabled).2 = users) ∨
      ((insertUser now users email passwordHash role groups enabled).1 = .ok () ∧
        (∀ u ∈ users, u.Email ≠ email) ∧
        (insertUser now users email passwordHash role groups enabled).2 =
          users ++ [{ ID := nextUserID users, Email := email, Password := passwordHash,
                      Role := role, Groups := groups, Enabled := enabled,
                      CreatedAt := now, UpdatedAt := now }]) := by
  unfold insertUser
  rcases hany : users.any (fun u => decide (u.Email = email)) with _ | _
  · right
    rw [List.any_eq_false] at hany
    have hne : ∀ u ∈ users, u.Email ≠ email := fun u hu => by simpa using hany u hu
    exact ⟨by simp, hne, by simp⟩
  · left
    simp

theorem createDefaultAdmin_has_admin (hasher : PasswordHasher) (now : Nat) (users : Users)
    (hok : (createDefaultAdmin hasher now users).1 = .ok ()) :
    ∃ u ∈ (createDefaultAdmin hasher now users).2, u.Email = adminEmail := by
  unfold createDefaultAdmin at hok ⊢
  generalize "DefaultPassword".toList = pw at hok ⊢
  generalize "admin".toList = role at hok ⊢
  generalize "team1:rw,team2:rw".toList = groups at hok ⊢
  by_cases hcount : (users.filter (fun u => decide (u.Email = adminEmail))).length > 0
  · simp only [hcount, if_true]
    obtain ⟨u, hu⟩ := List.exists_mem_of_length_pos hcount
    obtain ⟨hmem, hp⟩ := List.mem_filter.1 hu
    exact ⟨u, hmem, by simpa using hp⟩
  · simp only [hcount, if_false] at hok ⊢
    rcases hh : hasher.HashPassword pw with err | hashed
    · simp [hh] at hok
    · simp only [hh] at hok ⊢
      rcases insertUser_users now users adminEmail hashed role groups true with
        ⟨h1, h2⟩ | ⟨h1, _, h3⟩
      · revert hok
        generalize insertUser now users adminEmail hashed role groups true = r at h1 h2 ⊢
        obtain ⟨r1, r2⟩ := r
        simp only at h1
        subst h1
        intro hok
        simp at hok
      · revert hok
        generalize insertUser now users adminEmail hashed role groups true = r at h1 h3 ⊢
        obtain ⟨r1, r2⟩ := r
        simp only at h1 h3
        subst h1 h3
        intro _
        exact ⟨_, List.mem_append_right _ (List.mem_singleton_self _), rfl⟩

theorem ValidateLogin_unknown (hasher : PasswordHasher) (users : Users) (email password : Str)
    (hnone : ∀ u ∈ users, u.Email ≠ email) :
    ValidateLogin hasher users email password = .error .invalidCredentials := by
  have hfind : users.find? (fun u => decide (u.Email = email)) = none := by
    rw [List.find?_eq_none]
    intro u hu
    simpa using hnone u hu
  simp [ValidateLogin, GetUserByEmail, hfind]

theorem UniqueEmails.eq_of_email (users : Users) (h : UniqueEmails users) (u v : User)
    (hu : u ∈ users) (hv : v ∈ users) (he : u.Email = v.Email) : u = v := by
  induction users with
  | nil => cases hu
  | cons a rest ih =>
    obtain ⟨ha, hrest⟩ := List.pairwise_cons.1 h
    rcases List.mem_cons.1 hu with rfl | hu'
    · rcases List.mem_cons.1 hv with rfl | hv'
      · rfl
      · exact absurd he (ha v hv')
    · rcases List.mem_cons.1 hv with rfl | hv'
      · exact absurd he.symm (ha u hu')
      · exact ih hrest hu' hv'

theorem find?_email_of_unique (users : Users) (h : UniqueEmails users) (u : User)
    (hu : u ∈ users) :
    users.find? (fun x => decide (x.Email = u.Email)) = some u := by
  have hsome : (users.find? (fun x => decide (x.Email = u.Email))).isSome := by
    rw [List.find?_isSome]
    exact ⟨u, hu, by simp⟩
  obtain ⟨v, hv⟩ := Option.isSome_iff_exists.1 hsome
  have hvmem : v ∈ users := List.mem_of_find?_eq_some hv
  have hve : v.Email = u.Email := by simpa using List.find?_some hv
  rw [hv, UniqueEmails.eq_of_email users h v u hvmem hu hve]

theorem ValidateLogin_ok_inv (hasher : PasswordHasher) (users : Users) (email password : Str)
    (user : User) (hok : ValidateLogin hasher users email password = .ok user) :
    user ∈ users ∧ user.Email = email ∧ user.Enabled = true ∧
      hasher.CheckPasswordHash password user.Password = true := by
  unfold ValidateLogin GetUserByEmail at hok
  rcases hf : users.find? (fun u => decide (u.Email = email)) with _ | u
  · simp [hf] at hok
  · simp only [hf] at hok
    have hmem : u ∈ users := List.mem_of_find?_eq_some hf
    have hemail : u.Email = email := by simpa using List.find?_some hf
    by_cases hen : u.Enabled = true
    · by_cases hc : hasher.CheckPasswordHash password u.Password = true
      · simp only [hen, hc, Bool.not_true, Bool.false_eq_true, if_false] at hok
        cases hok
        exact ⟨hmem, hemail, hen, hc⟩
      · simp [hen, hc] at hok
    · simp [hen] at hok

theorem CreateUser_users (hasher : PasswordHasher) (now : Nat) (password : Str)
    (users : Users) (email role groupsStr : Str) :
    (CreateUser hasher now password users email role groupsStr).2 = users ∨
      ∃ hashed groups, ParseGroups groupsStr = .ok groups ∧
        (∀ u ∈ users, u.Email ≠ email) ∧
        (CreateUser hasher now password users email role groupsStr).2 =
          users ++ [{ ID := nextUserID users, Email := email, Password := hashed,
                      Role := role, Groups := groupsStr, Enabled := true,
                      CreatedAt := now, UpdatedAt := now }] := by
  unfold CreateUser
  rcases hp : ParseGroups groupsStr with err | groups
  · exact Or.inl rfl
  · rcases hh : hasher.HashPassword password with err | hashed
    · exact Or.inl rfl
    · simp only
      rcases insertUser_users now users email hashed role groupsStr true with
        ⟨h1, h2⟩ | ⟨h1, hne, h3⟩
      · left
        revert h1 h2
        generalize insertUser now users email hashed role groupsStr true = r
        obtain ⟨r1, r2⟩ := r
        intro h1 h2
        simp only at h1 h2
        subst h1 h2
        rfl
      · right
        refine ⟨hashed, groups, rfl, hne, ?_⟩
        revert h1 h3
        generalize insertUser now users email hashed role groupsStr true = r
        obtain ⟨r1, r2⟩ := r
        intro h1 h3
        simp only at h1 h3
        subst h1 h3
        rfl

theorem UpdateUser_users (now : Nat) (users : Users) (email role groupsStr : Str) :
    (UpdateUser now users email role groupsStr).2 = users ∨
      ∃ groups, ParseGroups groupsStr = .ok groups ∧
        (UpdateUser now users email role groupsStr).2 =
          users.map fun u =>
            if u.Email = email then
              { u with Role := role, Groups := groupsStr, UpdatedAt := now }
            else u := by
  unfold UpdateUser
  rcases hp : ParseGroups groupsStr with err | groups
  · exact Or.inl rfl
  · exact Or.inr ⟨groups, rfl, rfl⟩

theorem ChangePassword_users (hasher : PasswordHasher) (now : Nat) (users : Users)
    (email newPassword : Str) :
    (ChangePassword hasher now users email newPassword).2 = users ∨
      ∃ hashed, (ChangePassword hasher now users email newPassword).2 =
        users.map fun u =>
          if u.Email = email then { u with Password := hashed, UpdatedAt := now } else u := by
  unfold ChangePassword
  rcases hh : hasher.HashPassword newPassword with err | hashed
  · exact Or.inl rfl
  · exact Or.inr ⟨hashed, rfl⟩

theorem DisableUser_users (now : Nat) (users : Users) (tokens : Tokens) (email : Str) :
    ((DisableUser now users tokens email).2.1 = users ∧
        (DisableUser now users tokens email).2.2 = tokens) ∨
      ((DisableUser now users tokens email).2.1 =
          users.map (fun u =>
            if u.Email = email then { u with Enabled := false, UpdatedAt := now } else u) ∧
        (DisableUser now users tokens email).2.2 =
          tokens.map (fun r =>
            if r.user_email = email then { r with revoked := true } else r)) := by
  by_cases h : email = adminEmail
  · left
    simp [DisableUser, h]
  · right
    rw [DisableUser_other now users tokens email h]
    exact ⟨rfl, rfl⟩

theorem StoreToken_tokens (sum256 : Str → List Nat) (db : Tokens) (token userEmail : Str)
    (expiresAt : Nat) :
    (StoreToken sum256 db token userEmail expiresAt).2 = db ∨
      ((∀ r ∈ db, r.token_hash ≠ HashToken sum256 token) ∧
        (StoreToken sum256 db token userEmail expiresAt).2 =
          db ++ [{ token_hash := HashToken sum256 token, user_email := userEmail,
                   expires_at := expiresAt, revoked := false }]) := by
  by_cases h : ∃ r ∈ db, r.token_hash = HashToken sum256 token
  · left
    rw [StoreToken_stored sum256 db token userEmail expiresAt h]
  · right
    have hfresh : ∀ r ∈ db, r.token_hash ≠ HashToken sum256 token :=
      fun r hr hh => h ⟨r, hr, hh⟩
    refine ⟨hfresh, ?_⟩
    rw [StoreToken_fresh sum256 db token userEmail expiresAt hfresh]

theorem GroupsParse_map (users : Users) (f : User → User)
    (hf : ∀ u ∈ users, ∃ groups, ParseGroups (f u).Groups = .ok groups) :
    GroupsParse (users.map f) := by
  intro u hu
  obtain ⟨u0, hu0, rfl⟩ := List.mem_map.1 hu
  exact hf u0 hu0

theorem GroupsParse_apply (hasher : PasswordHasher) (sum256 : Str → List Nat)
    (fmt : TimeText) (s : State) (op : Op) (h : GroupsParse s.users) :
    GroupsParse (Op.apply hasher sum256 fmt s op).users := by
  cases op with
  | login email password token expiresAt =>
    simp only [Op.apply]
    split <;> exact h
  | createUser now password email role groups =>
    simp only [Op.apply]
    rcases CreateUser_users hasher now password s.users email role groups with
      h1 | ⟨hashed, gs, hp, _, h1⟩
    · rw [h1]; exact h
    · rw [h1]
      intro u hu
      rcases List.mem_append.1 hu with hu | hu
      · exact h u hu
      · rw [List.mem_singleton.1 hu]
        exact ⟨gs, hp⟩
  | updateUser now email role groups =>
    simp only [Op.apply]
    rcases UpdateUser_users now s.users email role groups with h1 | ⟨gs, hp, h1⟩
    · rw [h1]; exact h
    · rw [h1]
      apply GroupsParse_map
      intro u hu
      by_cases he : u.Email = email
      · simp only [he, if_true]
        exact ⟨gs, hp⟩
      · simp only [he, if_false]
        exact h u hu
  | deleteUser email =>
    simp only [Op.apply, DeleteUser]
    split
    · exact h
    · intro u hu
      exact h u (List.mem_filter.1 hu).1
  | enableUser now email =>
    simp only [Op.apply, EnableUser]
    apply GroupsParse_map
    intro u hu
    by_cases he : u.Email = email
    · simp only [he, if_true]
      exact h u hu
    · simp only [he, if_false]
      exact h u hu
  | disableUser now email =>
    simp only [Op.apply]
    rcases DisableUser_users now s.users s.tokens email with ⟨h1, _⟩ | ⟨h1, _⟩
    · rw [h1]; exact h
    · rw [h1]
      apply GroupsParse_map
      intro u hu
      by_cases he : u.Email = email
      · simp only [he, if_true]
        exact h u hu
      · simp only [he, if_false]
        exact h u hu
  | changePassword now email newPassword =>
    simp only [Op.apply]
    rcases ChangePassword_users hasher now s.users email newPassword with h1 | ⟨hashed, h1⟩
    · rw [h1]; exact h
    · rw [h1]
      apply GroupsParse_map
      intro u hu
      by_cases he : u.Email = email
      · simp only [he, if_true]
        exact h u hu
      · simp only [he, if_false]
        exact h u hu
  | revokeUserTokens now email => exact h
  | cleanupExpiredTokens now => exact h

theorem GroupsParse_run (hasher : PasswordHasher) (sum256 : Str → List Nat) (fmt : TimeText)
    (ops : List Op) (s : State) (h : GroupsParse s.users) :
    GroupsParse (run hasher sum256 fmt s ops).users := by
  induction ops generalizing s with
  | nil => exact h
  | cons op rest ih => exact ih _ (GroupsParse_apply hasher sum256 fmt s op h)

theorem bootstrap_users (hasher : PasswordHasher) (now : Nat) :
    (bootstrap hasher now).users = [] ∨
      ∃ hashed, (bootstrap hasher now).users =
        [{ ID := 1, Email := adminEmail, Password := hashed, Role := "admin".toList,
           Groups := "team1:rw,team2:rw".toList, Enabled := true,
           CreatedAt := now, UpdatedAt := now }] := by
  unfold bootstrap createDefaultAdmin
  rcases hh : hasher.HashPassword "DefaultPassword".toList with err | hashed
  · left
    simp [hh]
  · right
    exact ⟨hashed, by simp [hh, insertUser, nextUserID]⟩

theorem GroupsParse_bootstrap (hasher : PasswordHasher) (now : Nat) :
    GroupsParse (bootstrap hasher now).users := by
  rcases bootstrap_users hasher now with h | ⟨hashed, h⟩
  · rw [h]
    intro u hu
    cases hu
  · rw [h]
    intro u hu
    rw [List.mem_singleton.1 hu]
    exact ⟨[⟨"team1".toList, tokenRW⟩, ⟨"team2".toList, tokenRW⟩],
      (by decide : ParseGroups "team1:rw,team2:rw".toList =
        .ok [⟨"team1".toList, tokenRW⟩, ⟨"team2".toList, tokenRW⟩])⟩

/-! ## Lemmas: the invariant of disabled identities -/

theorem UniqueEmails_map (users : Users) (f : User → User)
    (hf : ∀ u, (f u).Email = u.Email) (h : UniqueEmails users) :
    UniqueEmails (users.map f) := by
  unfold UniqueEmails at h ⊢
  rw [List.pairwise_map]
  exact h.imp (fun hab => by rwa [hf, hf])

theorem UniqueHashes_map (tokens : Tokens) (f : Token → Token)
    (hf : ∀ t, (f t).token_hash = t.token_hash) (h : UniqueHashes tokens) :
    UniqueHashes (tokens.map f) := by
  unfold UniqueHashes at h ⊢
  rw [List.pairwise_map]
  exact h.imp (fun hab => by rwa [hf, hf])

theorem UniqueEmails_append (users : Users) (new : User) (h : UniqueEmails users)
    (hnew : ∀ u ∈ users, u.Email ≠ new.Email) : UniqueEmails (users ++ [new]) := by
  unfold UniqueEmails at h ⊢
  rw [List.pairwise_append]
  refine ⟨h, List.pairwise_singleton _ _, ?_⟩
  intro a ha b hb
  rw [List.mem_singleton.1 hb]
  exact hnew a ha

theorem UniqueHashes_append (tokens : Tokens) (new : Token) (h : UniqueHashes tokens)
    (hnew : ∀ t ∈ tokens, t.token_hash ≠ new.token_hash) : UniqueHashes (tokens ++ [new]) := by
  unfold UniqueHashes at h ⊢
  rw [List.pairwise_append]
  refine ⟨h, List.pairwise_singleton _ _, ?_⟩
  intro a ha b hb
  rw [List.mem_singleton.1 hb]
  exact hnew a ha

theorem UniqueHashes.eq_of_hash (tokens : Tokens) (h : UniqueHashes tokens) (a b : Token)
    (ha : a ∈ tokens) (hb : b ∈ tokens) (he : a.token_hash = b.token_hash) : a = b := by
  induction tokens with
  | nil => cases ha
  | cons x rest ih =>
    obtain ⟨hx, hrest⟩ := List.pairwise_cons.1 h
    rcases List.mem_cons.1 ha with rfl | ha'
    · rcases List.mem_cons.1 hb with rfl | hb'
      · rfl
      · exact absurd he (hx b hb')
    · rcases List.mem_cons.1 hb with rfl | hb'
      · exact absurd he.symm (hx a ha')
      · exact ih hrest ha' hb'

/-- The invariant passes to tables whose disabled identities and unrevoked
tokens all come from the tables before. -/
theorem DisabledRevoked_of_refines (s s' : State) (h : DisabledRevoked s)
    (hu : ∀ u' ∈ s'.users, u'.Enabled = false →
      ∃ u ∈ s.users, u.Email = u'.Email ∧ u.Enabled = false)
    (ht : ∀ t' ∈ s'.tokens, t'.revoked = false →
      ∃ t ∈ s.tokens, t.user_email = t'.user_email ∧ t.revoked = false) :
    DisabledRevoked s' := by
  intro t' ht' u' hu' hemail hdis
  by_contra hrev
  have hrev' : t'.revoked = false := by simpa using hrev
  obtain ⟨u, hum, hue, hud⟩ := hu u' hu' hdis
  obtain ⟨t, htm, hte, htr⟩ := ht t' ht' hrev'
  have := h t htm u hum (by rw [hue, hemail, hte]) hud
  rw [htr] at this
  cases this

theorem refines_users_map (users : Users) (f : User → User)
    (hE : ∀ u, (f u).Email = u.Email) (hEn : ∀ u, (f u).Enabled = false → u.Enabled = false) :
    ∀ u' ∈ users.map f, u'.Enabled = false →
      ∃ u ∈ users, u.Email = u'.Email ∧ u.Enabled = false := by
  intro u' hu' hdis
  obtain ⟨u, hu, rfl⟩ := List.mem_map.1 hu'
  exact ⟨u, hu, (hE u).symm, hEn u hdis⟩

theorem refines_users_self (users : Users) :
    ∀ u' ∈ users, u'.Enabled = false →
      ∃ u ∈ users, u.Email = u'.Email ∧ u.Enabled = false :=
  fun u' hu' hdis => ⟨u', hu', rfl, hdis⟩

theorem refines_tokens_self (tokens : Tokens) :
    ∀ t' ∈ tokens, t'.revoked = false →
      ∃ t ∈ tokens, t.user_email = t'.user_email ∧ t.revoked = false :=
  fun t' ht' hrev => ⟨t', ht', rfl, hrev⟩

/-- The three facts carried along every sequence of calls. -/
theorem invariant_apply (hasher : PasswordHasher) (sum256 : Str → List Nat) (fmt : TimeText)
    (s : State) (op : Op)
    (h : UniqueEmails s.users ∧ UniqueHashes s.tokens ∧ DisabledRevoked s) :
    UniqueEmails (Op.apply hasher sum256 fmt s op).users ∧
      UniqueHashes (Op.apply hasher sum256 fmt s op).tokens ∧
      DisabledRevoked (Op.apply hasher sum256 fmt s op) := by
  obtain ⟨hU, hH, hD⟩ := h
  cases op with
  | login email password token expiresAt =>
    simp only [Op.apply]
    rcases hv : ValidateLogin hasher s.users email password with err | user
    · exact ⟨hU, hH, hD⟩
    · obtain ⟨hmem, _, hen, _⟩ := ValidateLogin_ok_inv hasher s.users email password user hv
      simp only
      rcases StoreToken_tokens sum256 s.tokens token user.Email expiresAt with
        h1 | ⟨hfresh, h1⟩
      · rw [h1]
        exact ⟨hU, hH, hD⟩
      · rw [h1]
        refine ⟨hU, UniqueHashes_append _ _ hH hfresh, ?_⟩
        intro t ht u hu hemail hdis
        rcases List.mem_append.1 ht with ht | ht
        · exact hD t ht u hu hemail hdis
        · rw [List.mem_singleton.1 ht] at hemail
          have : u = user := UniqueEmails.eq_of_email s.users hU u user hu hmem hemail
          rw [this, hen] at hdis
          cases hdis
  | createUser now password email role groups =>
    simp only [Op.apply]
    rcases CreateUser_users hasher now password s.users email role groups with
      h1 | ⟨hashed, gs, _, hne, h1⟩
    · rw [h1]
      exact ⟨hU, hH, hD⟩
    · rw [h1]
      refine ⟨UniqueEmails_append _ _ hU hne, hH, ?_⟩
      apply DisabledRevoked_of_refines s _ hD
      · intro u' hu' hdis
        rcases List.mem_append.1 hu' with hu' | hu'
        · exact ⟨u', hu', rfl, hdis⟩
        · rw [List.mem_singleton.1 hu'] at hdis
          cases hdis
      · exact refines_tokens_self _
  | updateUser now email role groups =>
    simp only [Op.apply]
    rcases UpdateUser_users now s.users email role groups with h1 | ⟨gs, _, h1⟩
    · rw [h1]
      exact ⟨hU, hH, hD⟩
    · rw [h1]
      have hE : ∀ u : User, (if u.Email = email then
          { u with Role := role, Groups := groups, UpdatedAt := now } else u).Email =
          u.Email := by
        intro u; split <;> rfl
      have hEn : ∀ u : User, (if u.Email = email then
          { u with Role := role, Groups := groups, UpdatedAt := now } else u).Enabled = false →
          u.Enabled = false := by
        intro u; split <;> exact id
      exact ⟨UniqueEmails_map _ _ hE hU, hH,
        DisabledRevoked_of_refines s _ hD (refines_users_map _ _ hE hEn)
          (refines_tokens_self _)⟩
  | deleteUser email =>
    simp only [Op.apply, DeleteUser]
    split
    · exact ⟨hU, hH, hD⟩
    · refine ⟨List.Pairwise.sublist (List.filter_sublist _) hU, hH, ?_⟩
      apply DisabledRevoked_of_refines s _ hD
      · intro u' hu' hdis
        exact ⟨u', (List.mem_filter.1 hu').1, rfl, hdis⟩
      · exact refines_tokens_self _
  | enableUser now email =>
    simp only [Op.apply, EnableUser]
    have hE : ∀ u : User, (if u.Email = email then
        { u with Enabled := true, UpdatedAt := now } else u).Email = u.Email := by
      intro u; split <;> rfl
    have hEn : ∀ u : User, (if u.Email = email then
        { u with Enabled := true, UpdatedAt := now } else u).Enabled = false →
        u.Enabled = false := by
      intro u
      split
      · intro hc; cases hc
      · exact id
    exact ⟨UniqueEmails_map _ _ hE hU, hH,
      DisabledRevoked_of_refines s _ hD (refines_users_map _ _ hE hEn)
        (refines_tokens_self _)⟩
  | disableUser now email =>
    simp only [Op.apply]
    rcases DisableUser_users now s.users s.tokens email with ⟨h1, h2⟩ | ⟨h1, h2⟩
    · rw [h1, h2]
      exact ⟨hU, hH, hD⟩
    · rw [h1, h2]
      have hE : ∀ u : User, (if u.Email = email then
          { u with Enabled := false, UpdatedAt := now } else u).Email = u.Email := by
        intro u; split <;> rfl
      have hT : ∀ t : Token, (if t.user_email = email then
          { t with revoked := true } else t).token_hash = t.token_hash := by
        intro t; split <;> rfl
      refine ⟨UniqueEmails_map _ _ hE hU, UniqueHashes_map _ _ hT hH, ?_⟩
      intro t' ht' u' hu' hemail hdis
      simp only at ht' hu'
      obtain ⟨t, ht, rfl⟩ := List.mem_map.1 ht'
      obtain ⟨u, hu, rfl⟩ := List.mem_map.1 hu'
      by_cases hte : t.user_email = email
      · simp [hte]
      · simp only [hte, if_false] at hemail ⊢
        by_cases hue : u.Email = email
        · simp only [hue, if_true] at hemail
          exact absurd hemail.symm hte
        · simp only [hue, if_false] at hemail hdis
          exact hD t ht u hu hemail hdis
  | changePassword now email newPassword =>
    simp only [Op.apply]
    rcases ChangePassword_users hasher now s.users email newPassword with h1 | ⟨hashed, h1⟩
    · rw [h1]
      exact ⟨hU, hH, hD⟩
    · rw [h1]
      have hE : ∀ u : User, (if u.Email = email then
          { u with Password := hashed, UpdatedAt := now } else u).Email = u.Email := by
        intro u; split <;> rfl
      have hEn : ∀ u : User, (if u.Email = email then
          { u with Password := hashed, UpdatedAt := now } else u).Enabled = false →
          u.Enabled = false := by
        intro u; split <;> exact id
      exact ⟨UniqueEmails_map _ _ hE hU, hH,
        DisabledRevoked_of_refines s _ hD (refines_users_map _ _ hE hEn)
          (refines_tokens_self _)⟩
  | revokeUserTokens now email =>
    simp only [Op.apply, RevokeUserTokens]
    have hT : ∀ t : Token, (if t.user_email = email ∧ t.revoked = false ∧
        fmt.stored t.expires_at > fmt.current now
        then { t with revoked := true } else t).token_hash = t.token_hash := by
      intro t; split <;> rfl
    refine ⟨hU, UniqueHashes_map _ _ hT hH, ?_⟩
    refine DisabledRevoked_of_refines s _ hD ?_ ?_
    · exact refines_users_self _
    intro t' ht' hrev
    simp only at ht'
    obtain ⟨t, ht, rfl⟩ := List.mem_map.1 ht'
    by_cases hc : t.user_email = email ∧ t.revoked = false ∧
        fmt.stored t.expires_at > fmt.current now
    · simp only [hc, and_self, if_true] at hrev
      cases hrev
    · simp only [hc, if_false] at hrev ⊢
      exact ⟨t, ht, rfl, hrev⟩
  | cleanupExpiredTokens now =>
    simp only [Op.apply, CleanupExpiredTokens]
    refine ⟨hU, List.Pairwise.sublist (List.filter_sublist _) hH, ?_⟩
    refine DisabledRevoked_of_refines s _ hD ?_ ?_
    · exact refines_users_self _
    intro t' ht' hrev
    exact ⟨t', (List.mem_filter.1 ht').1, rfl, hrev⟩

theorem invariant_run (hasher : PasswordHasher) (sum256 : Str → List Nat) (fmt : TimeText)
    (ops : List Op) (s : State)
    (h : UniqueEmails s.users ∧ UniqueHashes s.tokens ∧ DisabledRevoked s) :
    UniqueEmails (run hasher sum256 fmt s ops).users ∧
      UniqueHashes (run hasher sum256 fmt s ops).tokens ∧
      DisabledRevoked (run hasher sum256 fmt s ops) := by
  induction ops generalizing s with
  | nil => exact h
  | cons op rest ih => exact ih _ (invariant_apply hasher sum256 fmt s op h)

theorem invariant_bootstrap (hasher : PasswordHasher) (now : Nat) :
    UniqueEmails (bootstrap hasher now).users ∧ UniqueHashes (bootstrap hasher now).tokens ∧
      DisabledRevoked (bootstrap hasher now) := by
  have htok : (bootstrap hasher now).tokens = [] := rfl
  refine ⟨?_, ?_, ?_⟩
  · rcases bootstrap_users hasher now with h | ⟨hashed, h⟩
    · rw [h]; exact List.Pairwise.nil
    · rw [h]; exact List.pairwise_singleton _ _
  · rw [htok]; exact List.Pairwise.nil
  · intro t ht
    rw [htok] at ht
    cases ht

/-- The answer of `IsTokenRevoked` for a token whose row passes the comparison
of texts: the `revoked` column of the row. -/
theorem IsTokenRevoked_of_row (sum256 : Str → List Nat) (fmt : TimeText) (now : Nat)
    (tokens : Tokens) (token : Str) (t : Token) (hH : UniqueHashes tokens) (ht : t ∈ tokens)
    (hhash : t.token_hash = HashToken sum256 token)
    (hlive : fmt.stored t.expires_at > fmt.current now) :
    IsTokenRevoked sum256 fmt now tokens token = .ok t.revoked := by
  have hsome : (tokens.find? (fun r => decide (r.token_hash = HashToken sum256 token) &&
      decide (fmt.stored r.expires_at > fmt.current now))).isSome := by
    rw [List.find?_isSome]
    exact ⟨t, ht, by simp [hhash, hlive]⟩
  obtain ⟨r, hr⟩ := Option.isSome_iff_exists.1 hsome
  have hrmem : r ∈ tokens := List.mem_of_find?_eq_some hr
  have hrp := List.find?_some hr
  simp only [Bool.and_eq_true, decide_eq_true_eq] at hrp
  have : r = t := UniqueHashes.eq_of_hash tokens hH r t hrmem ht (by rw [hrp.1, hhash])
  subst this
  simp [IsTokenRevoked, hr]

/-! ## Lemmas: FormatGroups -/

theorem strings.Split_of_not_mem (s : Str) (sep : Char) (h : sep ∉ s) :
    strings.Split s sep = [s] := by
  induction s with
  | nil => rfl
  | cons c cs ih =>
    have hc : c ≠ sep := fun hc => h (hc ▸ List.mem_cons_self _ _)
    have hcs : sep ∉ cs := fun hm => h (List.mem_cons_of_mem _ hm)
    simp [strings.Split, hc, ih hcs]

theorem strings.Split_append (a b : Str) (sep : Char) (h : sep ∉ a) :
    strings.Split (a ++ sep :: b) sep = a :: strings.Split b sep := by
  induction a with
  | nil => simp [strings.Split]
  | cons c cs ih =>
    have hc : c ≠ sep := fun hc => h (hc ▸ List.mem_cons_self _ _)
    have hcs : sep ∉ cs := fun hm => h (List.mem_cons_of_mem _ hm)
    simp [strings.Split, hc, ih hcs]

theorem strings.Split_Join (parts : List Str) (sep : Char) (hne : parts ≠ [])
    (h : ∀ e ∈ parts, sep ∉ e) :
    strings.Split (strings.Join parts [sep]) sep = parts := by
  induction parts with
  | nil => exact absurd rfl hne
  | cons a rest ih =>
    cases rest with
    | nil => simpa [strings.Join] using strings.Split_of_not_mem a sep (h a (List.mem_cons_self _ _))
    | cons b rest =>
      have ha : sep ∉ a := h a (List.mem_cons_self _ _)
      have hrest : ∀ e ∈ b :: rest, sep ∉ e := fun e he => h e (List.mem_cons_of_mem _ he)
      have := ih (List.cons_ne_nil _ _) hrest
      simp only [strings.Join, List.append_assoc, List.singleton_append]
      rw [strings.Split_append a _ sep ha, this]

theorem strings.TrimSpace_head (c : Char) (s : Str)
    (h : strings.TrimSpace (c :: s) = c :: s) : unicode.IsSpace c = false := by
  by_contra hc
  have hc' : unicode.IsSpace c = true := by simpa using hc
  have h1 : (strings.TrimSpace (c :: s)).length ≤ s.length := by
    unfold strings.TrimSpace
    rw [List.dropWhile_cons_of_pos hc']
    exact le_trans (List.rdropWhile_prefix _ _).length_le (List.dropWhile_suffix _).length_le
  rw [h] at h1
  simp at h1

theorem strings.TrimSpace_eq_self (s : Str) (c : Char)
    (hhead : ∀ d t, s ++ [c] = d :: t → unicode.IsSpace d = false)
    (hlast : unicode.IsSpace c = false) :
    strings.TrimSpace (s ++ [c]) = s ++ [c] := by
  unfold strings.TrimSpace
  have hdrop : (s ++ [c]).dropWhile unicode.IsSpace = s ++ [c] := by
    rcases hs : s ++ [c] with _ | ⟨d, t⟩
    · rfl
    · have := hhead d t hs
      rw [List.dropWhile_cons_of_neg (by simp [this])]
  rw [hdrop, List.rdropWhile_concat_neg _ _ _ (by simp [hlast])]

/-- The entry `FormatGroups` writes for a grant. -/
theorem entry_roundtrip (g : GroupAccess)
    (hcomma : ',' ∉ g.GroupName) (hcolon : ':' ∉ g.GroupName)
    (htrim : strings.TrimSpace g.GroupName = g.GroupName)
    (hperm : g.Permission = tokenRO ∨ g.Permission = tokenRW) :
    ',' ∉ g.GroupName ++ [':'] ++ g.Permission ∧
      strings.TrimSpace (g.GroupName ++ [':'] ++ g.Permission) =
        g.GroupName ++ [':'] ++ g.Permission ∧
      ¬ Malformed (g.GroupName ++ [':'] ++ g.Permission) ∧
      entryGrant (g.GroupName ++ [':'] ++ g.Permission) = g := by
  obtain ⟨name, perm⟩ := g
  simp only at hcomma hcolon htrim hperm ⊢
  have hpcomma : ',' ∉ perm := by rcases hperm with h | h <;> subst h <;> decide
  have hpcolon : ':' ∉ perm := by rcases hperm with h | h <;> subst h <;> decide
  have hptrim : strings.TrimSpace perm = perm := by
    rcases hperm with h | h <;> subst h <;> decide
  have hsplit : strings.Split (name ++ [':'] ++ perm) ':' = [name, perm] := by
    rw [List.append_assoc, List.singleton_append, strings.Split_append name perm ':' hcolon,
      strings.Split_of_not_mem perm ':' hpcolon]
  have htrimE : strings.TrimSpace (name ++ [':'] ++ perm) = name ++ [':'] ++ perm := by
    have hform : ∃ pre last, name ++ [':'] ++ perm = pre ++ [last] ∧
        unicode.IsSpace last = false := by
      rcases hperm with h | h
      · exact ⟨name ++ [':', 'r'], 'o', by simp [h, tokenRO], by decide⟩
      · exact ⟨name ++ [':', 'r'], 'w', by simp [h, tokenRW], by decide⟩
    obtain ⟨pre, last, hpre, hlast⟩ := hform
    rw [hpre]
    apply strings.TrimSpace_eq_self _ _ _ hlast
    intro d t hd
    rw [← hpre] at hd
    cases name with
    | nil =>
      simp only [List.nil_append, List.singleton_append, List.cons.injEq] at hd
      rw [← hd.1]
      decide
    | cons n ns =>
      simp only [List.cons_append, List.cons.injEq] at hd
      rw [← hd.1]
      exact strings.TrimSpace_head n ns htrim
  refine ⟨?_, htrimE, ?_, ?_⟩
  · simp [hcomma, hpcomma]
  · unfold Malformed
    rw [htrimE]
    simp only [entryPermission, hsplit, List.getD_cons_succ, List.getD_cons_zero, hptrim]
    rintro ⟨_, h | h⟩
    · simp at h
    · rcases hperm with hp | hp
      · exact h.1 hp
      · exact h.2 hp
  · unfold entryGrant entryName entryPermission
    rw [hsplit]
    simp [htrim, hptrim]

/-! ## Lemmas: expandCombinedFlags -/

theorem separate_acc (tokens : List Str) :
    ∀ result positional, separate tokens result positional =
      (result ++ (separate tokens [] []).1, positional ++ (separate tokens [] []).2) := by
  generalize hn : tokens.length = n
  induction n using Nat.strong_induction_on generalizing tokens with
  | _ n ih =>
    intro result positional
    cases tokens with
    | nil => simp [separate]
    | cons arg rest =>
      cases rest with
      | nil =>
        by_cases hd : hasDash arg = true <;> by_cases hv : isValueFlag arg = true <;>
          simp [separate, hd, hv]
      | cons next rest' =>
        have hrest := fun r p => ih (next :: rest').length (by simp [← hn]) (next :: rest')
          rfl r p
        have hrest' := fun r p => ih rest'.length (by simp [← hn]; omega) rest' rfl r p
        by_cases hd : hasDash arg = true
        · by_cases hv : isValueFlag arg = true
          · by_cases hnd : hasDash next = true
            · simp only [separate, hd, hv, hnd, if_true, Bool.not_true, Bool.false_eq_true,
                if_false]
              rw [hrest (result ++ [arg]) positional, hrest ([] ++ [arg]) []]
              simp
            · simp only [separate, hd, hv, hnd, if_true, Bool.not_false]
              rw [hrest' (result ++ [arg] ++ [next]) positional,
                hrest' ([] ++ [arg] ++ [next]) []]
              simp
          · simp only [separate, hd, hv, if_true, Bool.false_eq_true, if_false]
            rw [hrest (result ++ [arg]) positional, hrest ([] ++ [arg]) []]
            simp
        · simp only [separate, hd, Bool.false_eq_true, if_false]
          rw [hrest result (positional ++ [arg]), hrest [] ([] ++ [arg])]
          simp

theorem separate_cons_positional (arg : Str) (rest : List Str) (hd : hasDash arg = false) :
    flagsOf (arg :: rest) = flagsOf rest ∧
      positionalOf (arg :: rest) = arg :: positionalOf rest := by
  unfold flagsOf positionalOf
  cases rest with
  | nil => simp [separate, hd]
  | cons next rest' =>
    simp only [separate, hd, Bool.false_eq_true, if_false]
    rw [separate_acc (next :: rest') [] ([] ++ [arg])]
    simp

theorem separate_cons_flag (arg : Str) (rest : List Str) (hd : hasDash arg = true)
    (hv : ¬ (isValueFlag arg = true ∧ takesValue rest = true)) :
    flagsOf (arg :: rest) = arg :: flagsOf rest ∧
      positionalOf (arg :: rest) = positionalOf rest := by
  unfold flagsOf positionalOf
  cases rest with
  | nil => by_cases hvf : isValueFlag arg = true <;> simp [separate, hd, hvf]
  | cons next rest' =>
    by_cases hvf : isValueFlag arg = true
    · have hnd : hasDash next = true := by
        by_contra hc
        exact hv ⟨hvf, by simp [takesValue, hc]⟩
      simp only [separate, hd, hvf, hnd, if_true, Bool.not_true, Bool.false_eq_true, if_false]
      rw [separate_acc (next :: rest') ([] ++ [arg]) []]
      simp
    · simp only [separate, hd, hvf, if_true, Bool.false_eq_true, if_false]
      rw [separate_acc (next :: rest') ([] ++ [arg]) []]
      simp

theorem separate_cons_value (arg next : Str) (rest : List Str) (hd : hasDash arg = true)
    (hv : isValueFlag arg = true) (hnd : hasDash next = false) :
    flagsOf (arg :: next :: rest) = arg :: next :: flagsOf rest ∧
      positionalOf (arg :: next :: rest) = positionalOf rest := by
  unfold flagsOf positionalOf
  simp only [separate, hd, hv, hnd, if_true, Bool.not_false]
  rw [separate_acc rest ([] ++ [arg] ++ [next]) []]
  simp

theorem isValueFlag_hasDash (arg : Str) (hv : isValueFlag arg = true) : hasDash arg = true := by
  simp only [isValueFlag, Bool.or_eq_true, decide_eq_true_eq] at hv
  rcases hv with ((((h | h) | h) | h) | h) | h <;> subst h <;> rfl

/-- Induction along the second pass: over a positional argument, over a flag
that takes no value here, and over a value-taking flag and its value. -/
theorem separate_induction (motive : List Str → Prop) (hnil : motive [])
    (hpos : ∀ arg rest, hasDash arg = false → motive rest → motive (arg :: rest))
    (hflag : ∀ arg rest, hasDash arg = true →
      ¬ (isValueFlag arg = true ∧ takesValue rest = true) → motive rest →
      motive (arg :: rest))
    (hvalue : ∀ arg next rest, hasDash arg = true → isValueFlag arg = true →
      hasDash next = false → motive rest → motive (arg :: next :: rest))
    (tokens : List Str) : motive tokens := by
  generalize hn : tokens.length = n
  induction n using Nat.strong_induction_on generalizing tokens with
  | _ n ih =>
    cases tokens with
    | nil => exact hnil
    | cons arg rest =>
      have hrest : motive rest := ih rest.length (by simp [← hn]) rest rfl
      by_cases hd : hasDash arg = true
      · by_cases hv : isValueFlag arg = true ∧ takesValue rest = true
        · cases rest with
          | nil => simp [takesValue] at hv
          | cons next rest' =>
            have hnd : hasDash next = false := by simpa [takesValue] using hv.2
            exact hvalue arg next rest' hd hv.1 hnd
              (ih rest'.length (by simp [← hn]; omega) rest' rfl)
        · exact hflag arg rest hd hv hrest
      · exact hpos arg rest (by simpa using hd) hrest

theorem hasDash_cons (c : Char) (s : Str) : hasDash (c :: s) = decide (c = '-') := by
  by_cases h : c = '-'
  · subst h; rfl
  · simp only [h, decide_False]
    unfold hasDash
    split
    · next heq => exact absurd (List.cons.inj heq).1 h
    · rfl

theorem bytes_ascii (s : Str) (h : IsAscii s) : bytes s = s.map Char.toNat := by
  induction s with
  | nil => rfl
  | cons c cs ih =>
    have hc : c.toNat < 0x80 := h c (List.mem_cons_self _ _)
    have hcs : IsAscii cs := fun d hd => h d (List.mem_cons_of_mem _ hd)
    have := ih hcs
    unfold bytes at this ⊢
    simp only [List.map_cons, List.flatten_cons, this]
    simp [utf8Bytes, hc]

theorem toNat_eq_dash (c : Char) : c.toNat = 0x2D ↔ c = '-' := by
  constructor
  · intro h
    rw [← Char.ofNat_toNat c, h]
  · intro h
    subst h
    rfl

/-- On an ASCII argument the first pass does what the specification says. -/
theorem expandArg_ascii (arg : Str) (h : IsAscii arg) : expandArg arg = specExpandArg arg := by
  unfold expandArg
  rw [bytes_ascii arg h]
  match arg with
  | [] => simp [specExpandArg, hasDash]
  | [c0] => simp [specExpandArg]
  | [c0, c1] => simp [specExpandArg]
  | c0 :: c1 :: c2 :: cs =>
    simp only [specExpandArg, hasDash_cons, List.map_cons, List.length_cons,
      List.getD_cons_succ, List.getD_cons_zero, List.drop_succ_cons, List.drop_zero]
    by_cases h0 : c0 = '-'
    · by_cases h1 : c1 = '-'
      · simp [h0, h1, toNat_eq_dash]
      · have h1' : ¬ c1.toNat = 0x2D := fun hc => h1 ((toNat_eq_dash c1).1 hc)
        simp [h0, h1, h1', Char.ofNat_toNat, Function.comp]
    · simp [h0]

/-- An argument that does not begin with `-` is kept whole, in the code and
in the specification. -/
theorem expandArg_no_dash (arg : Str) (h : hasDash arg = false) :
    expandArg arg = specExpandArg arg := by
  have h1 : expandArg arg = [arg] := by simp [expandArg, h]
  rw [h1]
  match arg, h with
  | [], _ => rfl
  | [c0], _ => rfl
  | [c0, c1], _ => rfl
  | c0 :: c1 :: c2 :: cs, h =>
    have h0 : c0 ≠ '-' := by
      intro hc
      rw [hasDash_cons, hc] at h
      cases h
    simp [specExpandArg, h0]

theorem expand_ascii (args : List Str) (h : ∀ a ∈ args, hasDash a = true → IsAscii a) :
    expand args = specExpand args := by
  unfold expand specExpand
  congr 1
  apply List.map_congr_left
  intro a ha
  by_cases hd : hasDash a = true
  · exact expandArg_ascii a (h a ha hd)
  · exact expandArg_no_dash a (by simpa using hd)

theorem separate_no_value (tokens : List Str) (h : ∀ t ∈ tokens, isValueFlag t = false) :
    flagsOf tokens = tokens.filter hasDash ∧
      positionalOf tokens = tokens.filter (fun t => !hasDash t) := by
  induction tokens with
  | nil => exact ⟨rfl, rfl⟩
  | cons arg rest ih =>
    obtain ⟨ih1, ih2⟩ := ih (fun t ht => h t (List.mem_cons_of_mem _ ht))
    have hv : isValueFlag arg = false := h arg (List.mem_cons_self _ _)
    by_cases hd : hasDash arg = true
    · obtain ⟨e1, e2⟩ := separate_cons_flag arg rest hd (by simp [hv])
      rw [e1, e2, ih1, ih2]
      simp [List.filter_cons, hd]
    · have hd' : hasDash arg = false := by simpa using hd
      obtain ⟨e1, e2⟩ := separate_cons_positional arg rest hd'
      rw [e1, e2, ih1, ih2]
      simp [List.filter_cons, hd']

theorem expand_no_dash (args : List Str) (h : ∀ a ∈ args, hasDash a = false) :
    expand args = args := by
  induction args with
  | nil => rfl
  | cons a rest ih =>
    have ha : hasDash a = false := h a (List.mem_cons_self _ _)
    have := ih (fun b hb => h b (List.mem_cons_of_mem _ hb))
    unfold expand at this ⊢
    simp [expandArg, ha, this]

theorem takesValue_append (pre rest : List Str) (f : Str) (hf : hasDash f = true)
    (h : takesValue (pre ++ f :: rest) = true) : takesValue pre = true := by
  cases pre with
  | nil => simp [takesValue, hf] at h
  | cons a pre' => simpa [takesValue] using h

/-- Reading tokens up to a token that begins with `-` does not depend on what
follows it. -/
theorem separate_append (pre rest : List Str) (f : Str) (hf : hasDash f = true) :
    flagsOf (pre ++ f :: rest) = flagsOf pre ++ flagsOf (f :: rest) ∧
      positionalOf (pre ++ f :: rest) = positionalOf pre ++ positionalOf (f :: rest) := by
  induction pre using separate_induction with
  | hnil => exact ⟨rfl, rfl⟩
  | hpos arg pre' hd ih =>
    obtain ⟨e1, e2⟩ := separate_cons_positional arg (pre' ++ f :: rest) hd
    obtain ⟨e3, e4⟩ := separate_cons_positional arg pre' hd
    rw [List.cons_append, e1, e2, e3, e4, ih.1, ih.2]
    exact ⟨rfl, rfl⟩
  | hflag arg pre' hd hv ih =>
    have hv' : ¬ (isValueFlag arg = true ∧ takesValue (pre' ++ f :: rest) = true) :=
      fun hc => hv ⟨hc.1, takesValue_append pre' rest f hf hc.2⟩
    obtain ⟨e1, e2⟩ := separate_cons_flag arg (pre' ++ f :: rest) hd hv'
    obtain ⟨e3, e4⟩ := separate_cons_flag arg pre' hd hv
    rw [List.cons_append, e1, e2, e3, e4, ih.1, ih.2]
    exact ⟨rfl, rfl⟩
  | hvalue arg next pre' hd hv hnd ih =>
    obtain ⟨e1, e2⟩ := separate_cons_value arg next (pre' ++ f :: rest) hd hv hnd
    obtain ⟨e3, e4⟩ := separate_cons_value arg next pre' hd hv hnd
    rw [List.cons_append, List.cons_append, e1, e2, e3, e4, ih.1, ih.2]
    exact ⟨rfl, rfl⟩

theorem separate_facts (tokens : List Str) :
    (∀ x ∈ positionalOf tokens, hasDash x = false) ∧
      (positionalOf tokens).Sublist tokens ∧
      (flagsOf tokens).Sublist tokens ∧
      (flagsOf tokens ++ positionalOf tokens).Perm tokens ∧
      (flagsOf tokens).filter hasDash = tokens.filter hasDash := by
  induction tokens using separate_induction with
  | hnil =>
    refine ⟨?_, ?_, ?_, ?_, ?_⟩ <;> simp [flagsOf, positionalOf, separate]
  | hpos arg rest hd ih =>
    obtain ⟨h1, h2, h3, h4, h5⟩ := ih
    obtain ⟨e1, e2⟩ := separate_cons_positional arg rest hd
    rw [e1, e2]
    refine ⟨?_, h2.cons₂ _, h3.cons _, ?_, ?_⟩
    · intro x hx
      rcases List.mem_cons.1 hx with rfl | hx
      · exact hd
      · exact h1 x hx
    · exact List.perm_middle.trans (h4.cons _)
    · simp [List.filter_cons, hd, h5]
  | hflag arg rest hd hv ih =>
    obtain ⟨h1, h2, h3, h4, h5⟩ := ih
    obtain ⟨e1, e2⟩ := separate_cons_flag arg rest hd hv
    rw [e1, e2]
    refine ⟨h1, h2.cons _, h3.cons₂ _, ?_, ?_⟩
    · exact h4.cons _
    · simp [List.filter_cons, hd, h5]
  | hvalue arg next rest hd hv hnd ih =>
    obtain ⟨h1, h2, h3, h4, h5⟩ := ih
    obtain ⟨e1, e2⟩ := separate_cons_value arg next rest hd hv hnd
    rw [e1, e2]
    refine ⟨h1, (h2.cons _).cons _, (h3.cons₂ _).cons₂ _, ?_, ?_⟩
    · exact (h4.cons _).cons _
    · simp [List.filter_cons, hd, hnd, h5]

/-- When every argument that begins with `-` is ASCII and, after expansion,
no token is a value-taking flag, `expandCombinedFlags` returns all tokens that
begin with `-` in their order, followed by all arguments that do not, in their
order, where each argument `-c1c2..cn` (`n ≥ 2`, `c1` not `-`) is replaced by
`-c1`, .., `-cn` and every other argument is kept whole. -/
theorem expandCombinedFlags_of_ascii_flags (args : List Str)
    (hascii : ∀ a ∈ args, hasDash a = true → IsAscii a)
    (hnovalue : ∀ t ∈ specExpand args, isValueFlag t = false) :
    expandCombinedFlags args =
      (specExpand args).filter hasDash ++ (specExpand args).filter (fun t => !hasDash t) := by
  unfold expandCombinedFlags
  rw [expand_ascii args hascii]
  obtain ⟨h1, h2⟩ := separate_no_value (specExpand args) hnovalue
  unfold flagsOf at h1
  unfold positionalOf at h2
  rw [h1, h2]

/-- A list with no argument that begins with `-` is returned unchanged. -/
theorem expandCombinedFlags_of_no_dash (args : List Str)
    (hnodash : ∀ a ∈ args, hasDash a = false) : expandCombinedFlags args = args := by
  unfold expandCombinedFlags
  rw [expand_no_dash args hnodash]
  have hnv : ∀ t ∈ args, isValueFlag t = false := by
    intro t ht
    by_contra hc
    have := isValueFlag_hasDash t (by simpa using hc)
    rw [hnodash t ht] at this
    cases this
  obtain ⟨h1, h2⟩ := separate_no_value args hnv
  unfold flagsOf at h1
  unfold positionalOf at h2
  rw [h1, h2]
  have hf : args.filter hasDash = [] := by
    rw [List.filter_eq_nil_iff]
    intro a ha
    simp [hnodash a ha]
  have hp : args.filter (fun t => !hasDash t) = args := by
    rw [List.filter_eq_self]
    intro a ha
    simp [hnodash a ha]
  rw [hf, hp]
  rfl

theorem withPrevious_cons (prev : Option Str) (t : Str) (rest : List Str) :
    withPrevious prev (t :: rest) = (prev, t) :: withPrevious (some t) rest := rfl

/-- Before a token that is not the value of a flag, the token before it does
not matter. -/
theorem withPrevious_no_value (rest : List Str) (h : takesValue rest = false)
    (prev prev' : Option Str) :
    ((withPrevious prev rest).filter withFlags).map (·.2) =
        ((withPrevious prev' rest).filter withFlags).map (·.2) ∧
      ((withPrevious prev rest).filter (fun p => !withFlags p)).map (·.2) =
        ((withPrevious prev' rest).filter (fun p => !withFlags p)).map (·.2) := by
  cases rest with
  | nil => exact ⟨rfl, rfl⟩
  | cons next rest' =>
    have hnd : hasDash next = true := by simpa [takesValue] using h
    simp [withPrevious_cons, List.filter_cons, withFlags, hnd]

/-- The second loop computes what the specification says, from any token
before that is not a value-taking flag. -/
theorem separate_eq_spec (tokens : List Str) :
    ∀ prev : Option Str, (∀ f, prev = some f → isValueFlag f = false) →
      ((withPrevious prev tokens).filter withFlags).map (·.2) = flagsOf tokens ∧
        ((withPrevious prev tokens).filter (fun p => !withFlags p)).map (·.2) =
          positionalOf tokens := by
  induction tokens using separate_induction with
  | hnil =>
    intro prev _
    exact ⟨rfl, rfl⟩
  | hpos arg rest hd ih =>
    intro prev hprev
    have hw : withFlags (prev, arg) = false := by
      cases prev with
      | none => simp [withFlags, hd]
      | some f => simp [withFlags, hd, hprev f rfl]
    have hnv : isValueFlag arg = false := by
      by_contra hc
      have := isValueFlag_hasDash arg (by simpa using hc)
      rw [hd] at this
      cases this
    obtain ⟨i1, i2⟩ := ih (some arg) (fun f hf => by cases hf; exact hnv)
    obtain ⟨e1, e2⟩ := separate_cons_positional arg rest hd
    rw [e1, e2, withPrevious_cons]
    simp [List.filter_cons, hw, i1, i2]
  | hflag arg rest hd hv ih =>
    intro prev _
    have hw : withFlags (prev, arg) = true := by simp [withFlags, hd]
    obtain ⟨e1, e2⟩ := separate_cons_flag arg rest hd hv
    have hrest : ((withPrevious (some arg) rest).filter withFlags).map (·.2) = flagsOf rest ∧
        ((withPrevious (some arg) rest).filter (fun p => !withFlags p)).map (·.2) =
          positionalOf rest := by
      by_cases hvf : isValueFlag arg = true
      · have ht : takesValue rest = false := by
          by_contra hc
          exact hv ⟨hvf, by simpa using hc⟩
        obtain ⟨n1, n2⟩ := withPrevious_no_value rest ht (some arg) none
        obtain ⟨i1, i2⟩ := ih none (fun f hf => by cases hf)
        rw [n1, n2]
        exact ⟨i1, i2⟩
      · exact ih (some arg) (fun f hf => by cases hf; simpa using hvf)
    rw [e1, e2, withPrevious_cons]
    simp [List.filter_cons, hw, hrest.1, hrest.2]
  | hvalue arg next rest hd hv hnd ih =>
    intro prev _
    have hw : withFlags (prev, arg) = true := by simp [withFlags, hd]
    have hw' : withFlags (some arg, next) = true := by simp [withFlags, hv]
    have hnv : isValueFlag next = false := by
      by_contra hc
      have := isValueFlag_hasDash next (by simpa using hc)
      rw [hnd] at this
      cases this
    obtain ⟨i1, i2⟩ := ih (some next) (fun f hf => by cases hf; exact hnv)
    obtain ⟨e1, e2⟩ := separate_cons_value arg next rest hd hv hnd
    rw [e1, e2, withPrevious_cons, withPrevious_cons]
    simp [List.filter_cons, hw, hw', i1, i2]

theorem specFlags_eq (tokens : List Str) : specFlags tokens = flagsOf tokens :=
  (separate_eq_spec tokens none (fun f hf => by cases hf)).1

theorem specPositional_eq (tokens : List Str) : specPositional tokens = positionalOf tokens :=
  (separate_eq_spec tokens none (fun f hf => by cases hf)).2

/-! ## Lemmas: BuildTree -/

theorem mapGet_nil (k : Str) : mapGet [] k = none := rfl

theorem mapGet_cons (e : Str × Node) (rest : List (Str × Node)) (k : Str) :
    mapGet (e :: rest) k = if e.1 = k then some e.2 else mapGet rest k := by
  unfold mapGet
  by_cases h : e.1 = k
  · rw [List.find?_cons_of_pos _ (by simpa using h), if_pos h]
    rfl
  · rw [List.find?_cons_of_neg _ (by simpa using h), if_neg h]

theorem mapGet_append_singleton (children : List (Str × Node)) (key : Str) (node : Node)
    (k : Str) :
    mapGet (children ++ [(key, node)]) k =
      match mapGet children k with
      | some found => some found
      | none => if key = k then some node else none := by
  induction children with
  | nil => simp only [List.nil_append, mapGet_cons, mapGet_nil]
  | cons e rest ih =>
    rw [List.cons_append, mapGet_cons, mapGet_cons, ih]
    by_cases h : e.1 = k
    · simp only [h, if_true]
    · simp only [h, if_false]

theorem mapGet_replace (children : List (Str × Node)) (key : Str) (node : Node) (k : Str) :
    mapGet (children.map fun e => if e.1 = key then (key, node) else e) k =
      if k = key then
        if children.any (fun e => decide (e.1 = key)) then some node else none
      else mapGet children k := by
  induction children with
  | nil =>
    simp only [List.map_nil, mapGet_nil, List.any_nil, Bool.false_eq_true, if_false, ite_self]
  | cons e rest ih =>
    rw [List.map_cons, mapGet_cons, ih, mapGet_cons, List.any_cons]
    by_cases he : e.1 = key
    · by_cases hk : k = key
      · simp only [he, if_true, hk, decide_True, Bool.true_or]
      · have hk' : ¬ key = k := fun h => hk h.symm
        simp only [he, if_true, hk, if_false, hk']
    · by_cases hk : k = key
      · have hek : ¬ e.1 = k := fun h => he (h.trans hk)
        simp only [he, if_false, hk, if_true, decide_False, Bool.false_or]
      · simp only [he, if_false, hk]

theorem mapGet_mapSet (children : List (Str × Node)) (key : Str) (node : Node) (k : Str) :
    mapGet (mapSet children key node) k = if k = key then some node else mapGet children k := by
  unfold mapSet
  by_cases hany : children.any (fun e => decide (e.1 = key)) = true
  · rw [if_pos hany, mapGet_replace, if_pos hany]
  · rw [if_neg hany, mapGet_append_singleton]
    have hnone : mapGet children key = none := by
      have hall : ∀ e ∈ children, ¬ e.1 = key := by
        intro e he hk
        exact hany (List.any_eq_true.2 ⟨e, he, by simpa using hk⟩)
      clear hany
      induction children with
      | nil => rfl
      | cons e rest ih =>
        rw [mapGet_cons, if_neg (hall e (List.mem_cons_self _ _))]
        exact ih (fun x hx => hall x (List.mem_cons_of_mem _ hx))
    by_cases hk : k = key
    · subst hk
      rw [hnone]
    · have hk' : ¬ key = k := fun h => hk h.symm
      simp only [hk, if_false, hk']
      cases mapGet children k <;> rfl

theorem descend_nil (node : Node) : node.descend [] = some node := by
  cases node; rfl

theorem descend_cons (node : Node) (name : Str) (names : List Str) :
    node.descend (name :: names) =
      match mapGet node.Children name with
      | none => none
      | some child => child.descend names := by
  cases node; rfl

theorem Children_mk (name : Str) (isFolder : Bool) (children : List (Str × Node)) :
    (Node.mk name isFolder children).Children = children := rfl

theorem descend_NewNode (name : Str) (isFolder : Bool) (names : List Str) :
    ((NewNode name isFolder).descend names).isSome = true ↔ names = [] := by
  cases names with
  | nil => simp [descend_nil]
  | cons s ns => simp [descend_cons, NewNode, Node.Children, mapGet_nil]

theorem descend_insert (len : Nat) (parts : List (Nat × Str)) :
    ∀ (node : Node) (names : List Str),
      ((BuildTree.insert len parts node).descend names).isSome = true ↔
        (node.descend names).isSome = true ∨
          names <+: (parts.map (·.2)).filter (fun part => decide (part ≠ [])) := by
  induction parts with
  | nil =>
    intro node names
    simp only [BuildTree.insert, List.map_nil, List.filter_nil, List.prefix_nil]
    constructor
    · exact Or.inl
    · rintro (h | h)
      · exact h
      · subst h
        simp [descend_nil]
  | cons ip rest ih =>
    obtain ⟨i, part⟩ := ip
    intro node names
    by_cases hp : part = []
    · simp only [BuildTree.insert, hp, if_true, List.map_cons, List.filter_cons, ne_eq,
        not_true_eq_false, decide_False, Bool.false_eq_true, if_false]
      exact ih node names
    · have hfilter : ((((i, part) :: rest).map (·.2)).filter (fun part => decide (part ≠ []))) =
          part :: (rest.map (·.2)).filter (fun part => decide (part ≠ [])) := by
        simp [List.filter_cons, hp]
      rw [hfilter]
      simp only [BuildTree.insert, hp, if_false]
      cases names with
      | nil => simp [descend_nil]
      | cons s ns =>
        rw [descend_cons, descend_cons, Children_mk, mapGet_mapSet]
        by_cases hs : s = part
        · subst hs
          simp only [if_true, List.cons_prefix_cons, true_and]
          rw [ih]
          cases hget : mapGet node.Children s with
          | none =>
            simp only [descend_NewNode, Option.isSome_none, Bool.false_eq_true, false_or]
            constructor
            · rintro (h | h)
              · subst h
                exact List.nil_prefix
              · exact h
            · exact Or.inr
          | some c => exact Iff.rfl
        · simp only [hs, if_false, List.cons_prefix_cons, false_and, or_false]

theorem descend_foldl (paths : List Str) :
    ∀ (root : Node) (names : List Str),
      ((paths.foldl
          (fun root path =>
            BuildTree.insert (strings.Split path '/').length (strings.Split path '/').enum root)
          root).descend names).isSome = true ↔
        (root.descend names).isSome = true ∨ ∃ path ∈ paths, names <+: segments path := by
  induction paths with
  | nil =>
    intro root names
    simp
  | cons path rest ih =>
    intro root names
    rw [List.foldl_cons, ih, descend_insert, List.enum_map_snd]
    unfold segments
    constructor
    · rintro ((h | h) | ⟨p, hp, h⟩)
      · exact Or.inl h
      · exact Or.inr ⟨path, List.mem_cons_self _ _, h⟩
      · exact Or.inr ⟨p, List.mem_cons_of_mem _ hp, h⟩
    · rintro (h | ⟨p, hp, h⟩)
      · exact Or.inl (Or.inl h)
      · rcases List.mem_cons.1 hp with rfl | hp
        · exact Or.inl (Or.inr h)
        · exact Or.inr ⟨p, hp, h⟩

/-! ## Theorems: permission model -/

/-- C1: for every grant string and group, write access implies read access:
if `HasGroupAccess g G true` holds then `HasGroupAccess g G false` holds. -/
theorem HasGroupAccess_write_implies_read (g G : Str)
    (h : HasGroupAccess g G true = true) : HasGroupAccess g G false = true := by
  rcases hp : ParseGroups g with err | groups
  · rw [HasGroupAccess_of_error g G true err hp] at h
    cases h
  · rw [HasGroupAccess_of_ok g G true groups hp, HasGroupAccess.loop_eq_find] at h
    rw [HasGroupAccess_of_ok g G false groups hp, HasGroupAccess.loop_eq_find]
    cases hf : groups.find? (fun y => decide (y.GroupName = G)) with
    | none => rw [hf] at h; cases h
    | some x => rfl

/-- Witness for C1: the grant `team1:rw` gives write, hence read, on `team1`. -/
theorem HasGroupAccess_write_implies_read_witness :
    HasGroupAccess "team1:rw".toList "team1".toList true = true ∧
      HasGroupAccess "team1:rw".toList "team1".toList false = true :=
  ⟨by decide, HasGroupAccess_write_implies_read _ _ (by decide)⟩

/-- C2: when `ParseGroups` returns an error for a grant string,
`HasGroupAccess` is false for every group and for both values of
`requireWrite`: nothing is granted from the well-formed entries. -/
theorem HasGroupAccess_fail_closed (g G : Str) (requireWrite : Bool) (err : ParseError)
    (h : ParseGroups g = .error err) : HasGroupAccess g G requireWrite = false :=
  HasGroupAccess_of_error g G requireWrite err h

/-- Witness for C2: `team1:rw,bad` has a well-formed first entry and a
malformed second one; `team1` gets no write access from it. -/
theorem HasGroupAccess_fail_closed_witness :
    ParseGroups "team1:rw,bad".toList = .error (.invalidFormat "bad".toList) ∧
      HasGroupAccess "team1:rw,bad".toList "team1".toList true = false :=
  ⟨by decide, HasGroupAccess_fail_closed _ _ _ _ (by decide : ParseGroups "team1:rw,bad".toList = .error (.invalidFormat "bad".toList))⟩

/-- C3 as stated fails: in `a:ro,a:rw` some parsed grant has name `a` and the
read-write token, yet write access on `a` is refused, because the first grant
named `a` decides. -/
theorem HasGroupAccess_some_grant_counterexample :
    ¬ (HasGroupAccess "a:ro,a:rw".toList "a".toList true = true ↔
        ∃ groups, ParseGroups "a:ro,a:rw".toList = .ok groups ∧
          ∃ x ∈ groups, x.GroupName = "a".toList ∧ x.Permission = tokenRW) := by
  intro h
  have hf : HasGroupAccess "a:ro,a:rw".toList "a".toList true = false := by decide
  rw [hf] at h
  have : false = true :=
    h.2 ⟨[⟨"a".toList, tokenRO⟩, ⟨"a".toList, tokenRW⟩], by decide,
      ⟨"a".toList, tokenRW⟩, by decide, rfl, rfl⟩
  cases this

/-- C3 (amended): `HasGroupAccess g G requireWrite` is true if and only if
`ParseGroups g` succeeds and the first parsed grant whose group name is `G`
exists and, when `requireWrite` is true, carries the read-write token; with
`requireWrite` false either permission suffices. -/
theorem HasGroupAccess_iff_first_grant (g G : Str) (requireWrite : Bool) :
    HasGroupAccess g G requireWrite = true ↔
      ∃ groups, ParseGroups g = .ok groups ∧
        ∃ x, groups.find? (fun y => decide (y.GroupName = G)) = some x ∧
          (requireWrite = true → x.Permission = tokenRW) := by
  rcases hp : ParseGroups g with err | groups
  · rw [HasGroupAccess_of_error g G requireWrite err hp]
    simp
  · rw [HasGroupAccess_of_ok g G requireWrite groups hp, HasGroupAccess.loop_eq_find]
    constructor
    · intro h
      refine ⟨groups, rfl, ?_⟩
      cases hf : groups.find? (fun y => decide (y.GroupName = G)) with
      | none => rw [hf] at h; cases h
      | some x =>
        rw [hf] at h
        refine ⟨x, rfl, ?_⟩
        intro hw
        subst hw
        simpa using h
    · rintro ⟨groups2, hok, x, hx, hw⟩
      cases hok
      rw [hx]
      cases requireWrite with
      | false => rfl
      | true => simpa using hw rfl

/-- C4 as stated fails: in `team1:rw, ` the second entry is the non-empty
string of one space, which does not split on `:` into two parts, yet the parse
succeeds and returns the grant of the first entry. -/
theorem ParseGroups_blank_entry_counterexample :
    " ".toList ∈ entries "team1:rw, ".toList ∧ " ".toList ≠ [] ∧
      (strings.Split " ".toList ':').length ≠ 2 ∧
      ParseGroups "team1:rw, ".toList = .ok [⟨"team1".toList, tokenRW⟩] := by
  decide

/-- C4 (amended): if some comma-separated entry of a grant string, trimmed of
surrounding white space, is non-empty and does not split on `:` into exactly
two parts, or has a second part that, trimmed, is neither `ro` nor `rw`, then
`ParseGroups` returns an error and no grants, wherever the entry stands; and
every grant of a successful parse carries one of those two tokens. -/
theorem ParseGroups_rejects_malformed (g : Str) :
    ((∃ e ∈ entries g, Malformed e) → ∃ err, ParseGroups g = .error err) ∧
      (∀ groups, ParseGroups g = .ok groups →
        ∀ x ∈ groups, x.Permission = tokenRO ∨ x.Permission = tokenRW) := by
  refine ⟨(ParseGroups_error_iff g).2, ?_⟩
  intro groups hok x hx
  have hno : ∀ e ∈ entries g, ¬ Malformed e := by
    intro e he hm
    obtain ⟨err, herr⟩ := (ParseGroups_error_iff g).2 ⟨e, he, hm⟩
    rw [herr] at hok
    cases hok
  rw [ParseGroups_ok_eq g groups hok] at hx
  obtain ⟨part, hpart, rfl⟩ := List.mem_map.1 hx
  simp only [liveEntries, List.mem_filter, List.mem_map, decide_eq_true_eq] at hpart
  obtain ⟨⟨e, he, rfl⟩, hne⟩ := hpart
  have hm := hno e he
  unfold Malformed at hm
  by_contra hc
  apply hm
  refine ⟨hne, Or.inr ?_⟩
  simp only [entryGrant] at hc
  exact ⟨fun h1 => hc (Or.inl h1), fun h2 => hc (Or.inr h2)⟩

/-- Witness for C4: `team1:rw,team2:admin` is rejected for its second entry,
and the grant of the accepted `team1:ro` carries the token `ro`. -/
theorem ParseGroups_rejects_malformed_witness :
    (∃ err, ParseGroups "team1:rw,team2:admin".toList = .error err) ∧
      (∀ x ∈ [(⟨"team1".toList, tokenRO⟩ : GroupAccess)],
        x.Permission = tokenRO ∨ x.Permission = tokenRW) :=
  ⟨(ParseGroups_rejects_malformed "team1:rw,team2:admin".toList).1
      ⟨"team2:admin".toList, by decide, by decide⟩,
    (ParseGroups_rejects_malformed "team1:ro".toList).2 _ (by decide)⟩

/-- C5 as stated fails: the entry `:rw` has an empty group name and is
accepted, and the empty entry between the two commas of `a:rw,,b:ro` is
skipped. -/
theorem ParseGroups_empty_name_counterexample :
    entryName ":rw".toList = [] ∧
      ParseGroups ":rw".toList = .ok [⟨[], tokenRW⟩] ∧
      [] ∈ entries "a:rw,,b:ro".toList ∧
      ParseGroups "a:rw,,b:ro".toList =
        .ok [⟨"a".toList, tokenRW⟩, ⟨"b".toList, tokenRO⟩] := by
  decide

/-- C5 (amended): `ParseGroups` fails the whole parse exactly when some
comma-separated entry, trimmed, is non-empty and does not split on `:` into
exactly two parts or has a second part that, trimmed, is neither `ro` nor
`rw`; entries that are blank are skipped and the group name may be empty. -/
theorem ParseGroups_fails_iff (g : Str) :
    (∃ err, ParseGroups g = .error err) ↔ ∃ e ∈ entries g, Malformed e :=
  ParseGroups_error_iff g

/-- C6 as stated fails: `a:ro,a:rw` is accepted and both returned grants have
the group name `a`. -/
theorem ParseGroups_duplicate_name_counterexample :
    ∃ groups, ParseGroups "a:ro,a:rw".toList = .ok groups ∧
      ¬ (groups.map (·.GroupName)).Nodup :=
  ⟨[⟨"a".toList, tokenRO⟩, ⟨"a".toList, tokenRW⟩], by decide, by decide⟩

/-- C6 (amended): for every grant string that `ParseGroups` accepts, the
returned grants appear in the order of their entries in the string, one grant
for each entry that is not blank; group names may repeat. -/
theorem ParseGroups_order (g : Str) (groups : List GroupAccess)
    (h : ParseGroups g = .ok groups) :
    groups = (liveEntries (entries g)).map entryGrant :=
  ParseGroups_ok_eq g groups h

/-- Witness for C6: the three grants of `b:rw, a:ro ,b:ro` in entry order. -/
theorem ParseGroups_order_witness :
    ParseGroups "b:rw, a:ro ,b:ro".toList =
        .ok [⟨"b".toList, tokenRW⟩, ⟨"a".toList, tokenRO⟩, ⟨"b".toList, tokenRO⟩] ∧
      [⟨"b".toList, tokenRW⟩, ⟨"a".toList, tokenRO⟩, ⟨"b".toList, tokenRO⟩] =
        (liveEntries (entries "b:rw, a:ro ,b:ro".toList)).map entryGrant :=
  ⟨by decide, ParseGroups_order _ _ (by decide)⟩

/-! ## Theorems: secret repository -/

/-- C7: a call whose grant string does not authorize the required access on
the requested group returns the permission error, hence no secret data, and
leaves the stored rows exactly as they were: `CreatePassword`,
`UpdatePassword`, `DeletePassword` and `DeletePasswordRecursive` without
write access, `GetPassword`, `GetPasswordInfo` and `ListPasswords` (which
only read the table) without read access. -/
theorem unauthorized_call_has_no_effect (crypto : Cipher) (now : Nat) (db : Passwords)
    (path value groupName userEmail userGroups : Str) :
    (HasGroupAccess userGroups groupName true = false →
      CreatePassword crypto now db path value groupName userEmail userGroups =
          (.error (.insufficientWrite groupName), db) ∧
        UpdatePassword crypto now db path value groupName userEmail userGroups =
          (.error (.insufficientWrite groupName), db) ∧
        DeletePassword db path groupName userGroups =
          (.error (.insufficientWrite groupName), db) ∧
        DeletePasswordRecursive db path groupName userGroups =
          (.error (.insufficientWrite groupName), db)) ∧
      (HasGroupAccess userGroups groupName false = false →
        GetPassword crypto db path groupName userGroups =
            .error (.insufficientRead groupName) ∧
          GetPasswordInfo db path groupName userGroups =
            .error (.insufficientRead groupName) ∧
          ListPasswords db groupName path userGroups =
            .error (.insufficientRead groupName)) := by
  constructor
  · intro h
    simp [CreatePassword, UpdatePassword, DeletePassword, DeletePasswordRecursive, h]
  · intro h
    simp [GetPassword, GetPasswordInfo, ListPasswords, h]

/-- Witness for C7: with the grant `team1:ro` no write reaches the four
secrets of `team1`, and with the grant `team2:rw` no read does. -/
theorem unauthorized_call_has_no_effect_witness :
    (DeletePasswordRecursive fourSecrets "team/db".toList "team1".toList "team1:ro".toList =
        (.error (.insufficientWrite "team1".toList), fourSecrets)) ∧
      (GetPassword reverseCipher fourSecrets "team/db".toList "team1".toList "team2:rw".toList =
        .error (.insufficientRead "team1".toList)) :=
  ⟨((unauthorized_call_has_no_effect reverseCipher 1 fourSecrets "team/db".toList
        "secret".toList "team1".toList "user@pman.system".toList "team1:ro".toList).1
        (by decide)).2.2.2,
    ((unauthorized_call_has_no_effect reverseCipher 1 fourSecrets "team/db".toList
        "secret".toList "team1".toList "user@pman.system".toList "team2:rw".toList).2
        (by decide)).1⟩

/-- C8, the code at the failing input: with `team/db`, `team/db/user`,
`team/db/pass` and `team/dbx` stored, deleting the prefix `team/db` removes
all four rows and returns 4, so the row `team/dbx`, whose path extends
`team/db` without a `/`, is not left; while `folderHasPasswords` of the same
service does not count `team/dbx` as a secret of the folder `team/db`. -/
theorem DeletePasswordRecursive_ignores_boundary :
    DeletePasswordRecursive fourSecrets "team/db".toList "team1".toList "team1:rw".toList =
        (.ok 4, []) ∧
      (DeletePasswordRecursive fourSecrets "team/db".toList "team1".toList
        "team1:rw".toList).2 ≠ [secretAt "team/dbx".toList "team1".toList] ∧
      folderHasPasswords [secretAt "team/dbx".toList "team1".toList] "team/db".toList
        "team1".toList = false := by
  decide

/-- C9, the code at failing inputs: the path `abc` starts with none of the
prefixes `a_c`, `%c` and `AB`, yet `DeletePasswordRecursive` with each of them
removes the row and returns 1, since `_` and `%` in the prefix act as `LIKE`
wildcards and ASCII letters match in either case. -/
theorem DeletePasswordRecursive_like_prefix :
    ¬ ("a_c".toList <+: "abc".toList) ∧
      DeletePasswordRecursive [secretAt "abc".toList "team1".toList] "a_c".toList
        "team1".toList "team1:rw".toList = (.ok 1, []) ∧
      ¬ ("%c".toList <+: "abc".toList) ∧
      DeletePasswordRecursive [secretAt "abc".toList "team1".toList] "%c".toList
        "team1".toList "team1:rw".toList = (.ok 1, []) ∧
      ¬ ("AB".toList <+: "abc".toList) ∧
      DeletePasswordRecursive [secretAt "abc".toList "team1".toList] "AB".toList
        "team1".toList "team1:rw".toList = (.ok 1, []) := by
  decide

/-- C10: when the store holds no row with key `(path, group)` and the caller
has write access, `UpdatePassword` returns the not-found error and leaves the
store unchanged: no row is created. -/
theorem UpdatePassword_absent_key (crypto : Cipher) (now : Nat) (db : Passwords)
    (path value groupName userEmail userGroups : Str)
    (haccess : HasGroupAccess userGroups groupName true = true)
    (habsent : ∀ r ∈ db, ¬ (r.Path = path ∧ r.GroupName = groupName)) :
    UpdatePassword crypto now db path value groupName userEmail userGroups =
      (.error .notFound, db) := by
  have hany : db.any (keyIs path groupName) = false := by
    rw [List.any_eq_false]
    intro r hr
    have := habsent r hr
    simpa [keyIs] using this
  simp [UpdatePassword, haccess, hany]

/-- Witness for C10: the four secrets hold no `team/new`; updating it fails
with not-found and the four rows stay. -/
theorem UpdatePassword_absent_key_witness :
    UpdatePassword reverseCipher 1 fourSecrets "team/new".toList "secret".toList
        "team1".toList "user@pman.system".toList "team1:rw".toList =
      (.error .notFound, fourSecrets) :=
  UpdatePassword_absent_key reverseCipher 1 fourSecrets "team/new".toList "secret".toList
    "team1".toList "user@pman.system".toList "team1:rw".toList (by decide) (by decide)

/-- C11: in a store keyed uniquely by `(path, group)` that holds a row for
`(path, group)`, `CreatePassword` by a caller with write access, the cipher
returning the envelope `enc` for the new value, succeeds; it leaves exactly
one row for that key, whose stored value is `enc` and whose `created_by` and
`updated_by` are both the actor; every row with another key is unchanged, and
the number of rows is the same. -/
theorem CreatePassword_overwrites (crypto : Cipher) (now : Nat) (db : Passwords)
    (path value groupName userEmail userGroups enc : Str)
    (haccess : HasGroupAccess userGroups groupName true = true)
    (henc : crypto.Encrypt value = .ok enc)
    (hunique : UniqueKeys db)
    (hrow : ∃ r ∈ db, r.Path = path ∧ r.GroupName = groupName) :
    (CreatePassword crypto now db path value groupName userEmail userGroups).1 = .ok () ∧
      (∃ r, (CreatePassword crypto now db path value groupName userEmail userGroups).2.filter
            (keyIs path groupName) = [r] ∧
          r.Value = enc ∧ r.CreatedBy = userEmail ∧ r.UpdatedBy = userEmail) ∧
      (CreatePassword crypto now db path value groupName userEmail userGroups).2.filter
          (fun r => !keyIs path groupName r) =
        db.filter (fun r => !keyIs path groupName r) ∧
      (CreatePassword crypto now db path value groupName userEmail userGroups).2.length =
        db.length := by
  rw [CreatePassword_authorized crypto now db path value groupName userEmail userGroups enc
    haccess henc]
  refine ⟨rfl, ⟨_, insertOrReplace_filter_key db path enc groupName userEmail userEmail now,
    rfl, rfl, rfl⟩, insertOrReplace_filter_other db path enc groupName userEmail userEmail now,
    ?_⟩
  have h1 := UniqueKeys.filter_key_length db hunique path groupName hrow
  have h2 := length_filter_other db path groupName
  simp only [insertOrReplace, List.length_append, List.length_singleton]
  omega

/-- Witness for C11: overwriting `team/db` among the four secrets as
`bob@pman.system`. -/
theorem CreatePassword_overwrites_witness :
    (CreatePassword reverseCipher 7 fourSecrets "team/db".toList "abc".toList "team1".toList
        "bob@pman.system".toList "team1:rw".toList).1 = .ok () ∧
      (CreatePassword reverseCipher 7 fourSecrets "team/db".toList "abc".toList "team1".toList
        "bob@pman.system".toList "team1:rw".toList).2.length = 4 :=
  ⟨(CreatePassword_overwrites reverseCipher 7 fourSecrets "team/db".toList "abc".toList
      "team1".toList "bob@pman.system".toList "team1:rw".toList "cba".toList
      (by decide) rfl (by decide) ⟨_, List.mem_cons_self _ _, rfl, rfl⟩).1,
    (CreatePassword_overwrites reverseCipher 7 fourSecrets "team/db".toList "abc".toList
      "team1".toList "bob@pman.system".toList "team1:rw".toList "cba".toList
      (by decide) rfl (by decide) ⟨_, List.mem_cons_self _ _, rfl, rfl⟩).2.2.2⟩

/-- C12 as stated fails: the cipher that returns its input as the envelope
satisfies `Decrypt(Encrypt(v)) = v`, and with it a successful `CreatePassword`
of the value `secret`, and a successful `UpdatePassword` with the value
`other`, each leave that value itself in the store. -/
theorem CreatePassword_identity_cipher_counterexample :
    (∀ x e, identityCipher.Encrypt x = .ok e → identityCipher.Decrypt e = .ok x) ∧
      HasGroupAccess "team1:rw".toList "team1".toList true = true ∧
      CreatePassword identityCipher 7 [] "team/db".toList "secret".toList "team1".toList
          "bob".toList "team1:rw".toList =
        (.ok (), [{ Path := "team/db".toList, Value := "secret".toList,
                    GroupName := "team1".toList, CreatedBy := "bob".toList,
                    UpdatedBy := "bob".toList, CreatedAt := 7, UpdatedAt := 7 }]) ∧
      UpdatePassword identityCipher 8
          [{ Path := "team/db".toList, Value := "secret".toList,
             GroupName := "team1".toList, CreatedBy := "bob".toList,
             UpdatedBy := "bob".toList, CreatedAt := 7, UpdatedAt := 7 }]
          "team/db".toList "other".toList "team1".toList "bob".toList "team1:rw".toList =
        (.ok (), [{ Path := "team/db".toList, Value := "other".toList,
                    GroupName := "team1".toList, CreatedBy := "bob".toList,
                    UpdatedBy := "bob".toList, CreatedAt := 7, UpdatedAt := 8 }]) := by
  refine ⟨?_, by decide, by decide, by decide⟩
  intro x e h
  cases h
  rfl

/-- C12 (amended): for a cipher with `Decrypt(Encrypt(v)) = v` that returns
the envelope `enc` for `v`, and grants with write access,
`CreatePassword(path, v, group)` succeeds and leaves a row of that key, and
`UpdatePassword(path, v, group)` succeeds when a row of that key is stored;
`GetPassword(path, group)` called afterwards returns exactly `v`, and the
value held in every row of that key is `enc`, the output of `Encrypt`: it is
not `v` itself whenever `enc` is not `v`. -/
theorem GetPassword_after_write (crypto : Cipher) (now : Nat) (db : Passwords)
    (path v groupName userEmail userGroups enc : Str)
    (hround : ∀ x e, crypto.Encrypt x = .ok e → crypto.Decrypt e = .ok x)
    (haccess : HasGroupAccess userGroups groupName true = true)
    (henc : crypto.Encrypt v = .ok enc) :
    ((CreatePassword crypto now db path v groupName userEmail userGroups).1 = .ok () ∧
      GetPassword crypto (CreatePassword crypto now db path v groupName userEmail userGroups).2
          path groupName userGroups = .ok v ∧
      (∃ r ∈ (CreatePassword crypto now db path v groupName userEmail userGroups).2,
        r.Path = path ∧ r.GroupName = groupName) ∧
      ∀ r ∈ (CreatePassword crypto now db path v groupName userEmail userGroups).2,
        r.Path = path → r.GroupName = groupName → r.Value = enc ∧ (enc ≠ v → r.Value ≠ v)) ∧
    ((∃ r ∈ db, r.Path = path ∧ r.GroupName = groupName) →
      (UpdatePassword crypto now db path v groupName userEmail userGroups).1 = .ok () ∧
      GetPassword crypto (UpdatePassword crypto now db path v groupName userEmail userGroups).2
          path groupName userGroups = .ok v ∧
      (∃ r ∈ (UpdatePassword crypto now db path v groupName userEmail userGroups).2,
        r.Path = path ∧ r.GroupName = groupName) ∧
      ∀ r ∈ (UpdatePassword crypto now db path v groupName userEmail userGroups).2,
        r.Path = path → r.GroupName = groupName → r.Value = enc ∧ (enc ≠ v → r.Value ≠ v)) := by
  have hread := HasGroupAccess_read_of_write userGroups groupName haccess
  constructor
  · rw [CreatePassword_authorized crypto now db path v groupName userEmail userGroups enc
      haccess henc]
    have hkey : (insertOrReplace db path enc groupName userEmail userEmail now).filter
        (keyIs path groupName) =
        [{ Path := path, Value := enc, GroupName := groupName, CreatedBy := userEmail,
           UpdatedBy := userEmail, CreatedAt := now, UpdatedAt := now }] :=
      insertOrReplace_filter_key db path enc groupName userEmail userEmail now
    refine ⟨rfl, ?_, ?_, ?_⟩
    · have hfind : (insertOrReplace db path enc groupName userEmail userEmail now).find?
          (keyIs path groupName) =
          some { Path := path, Value := enc, GroupName := groupName, CreatedBy := userEmail,
                 UpdatedBy := userEmail, CreatedAt := now, UpdatedAt := now } := by
        have hnone : (db.filter (fun r => !keyIs path groupName r)).find?
            (keyIs path groupName) = none := by
          rw [List.find?_eq_none]
          intro x hx
          have := (List.mem_filter.1 hx).2
          simpa using this
        unfold insertOrReplace
        rw [List.find?_append, hnone]
        simp [keyIs]
      simp [GetPassword, hread, hfind, hround v enc henc]
    · refine ⟨{ Path := path, Value := enc, GroupName := groupName, CreatedBy := userEmail,
                UpdatedBy := userEmail, CreatedAt := now, UpdatedAt := now }, ?_, rfl, rfl⟩
      unfold insertOrReplace
      exact List.mem_append_right _ (List.mem_singleton.2 rfl)
    · intro r hr hp hg
      have hk : keyIs path groupName r = true := (keyIs_iff _ _ _).2 ⟨hp, hg⟩
      have hmem : r ∈ (insertOrReplace db path enc groupName userEmail userEmail now).filter
          (keyIs path groupName) := List.mem_filter.2 ⟨hr, hk⟩
      rw [hkey] at hmem
      rw [List.mem_singleton.1 hmem]
      exact ⟨rfl, fun hne => hne⟩
  · rintro ⟨r0, hr0, hk0⟩
    have hk0' : keyIs path groupName r0 = true := (keyIs_iff _ _ _).2 hk0
    have hany : db.any (keyIs path groupName) = true := List.any_eq_true.2 ⟨r0, hr0, hk0'⟩
    have hres : UpdatePassword crypto now db path v groupName userEmail userGroups =
        (.ok (), db.map fun r =>
          if keyIs path groupName r then
            { r with Value := enc, UpdatedBy := userEmail, UpdatedAt := now }
          else r) := by
      simp [UpdatePassword, haccess, hany, henc]
    rw [hres]
    refine ⟨rfl, ?_, ?_, ?_⟩
    · have hsome : (db.find? (keyIs path groupName)).isSome := by
        rw [List.find?_isSome]
        exact ⟨r0, hr0, hk0'⟩
      obtain ⟨r1, hr1⟩ := Option.isSome_iff_exists.1 hsome
      have hk1 : keyIs path groupName r1 = true := List.find?_some hr1
      have hcomp : (keyIs path groupName ∘ fun r =>
          if keyIs path groupName r then
            { r with Value := enc, UpdatedBy := userEmail, UpdatedAt := now }
          else r) = keyIs path groupName := by
        funext r
        by_cases hk : keyIs path groupName r = true
        · simp only [Function.comp, hk, if_true]
          simpa [keyIs] using hk
        · simp [Function.comp, hk]
      simp [GetPassword, hread, List.find?_map, hcomp, hr1, hk1, hround v enc henc]
    · refine ⟨{ r0 with Value := enc, UpdatedBy := userEmail, UpdatedAt := now }, ?_,
        hk0.1, hk0.2⟩
      exact List.mem_map.2 ⟨r0, hr0, by simp [hk0']⟩
    · intro r hr hp hg
      obtain ⟨r1, _, rfl⟩ := List.mem_map.1 hr
      by_cases hk : keyIs path groupName r1 = true
      · simp only [hk, if_true]
        exact ⟨trivial, fun hne => hne⟩
      · simp only [hk] at hp hg
        exact absurd ((keyIs_iff _ _ _).2 ⟨hp, hg⟩) hk

/-- Witness for C12: with the reversing cipher, `abc` written at `team/db` by
`CreatePassword`, and by `UpdatePassword`, is read back as `abc`, and the row
of `team/db` holds `cba`. -/
theorem GetPassword_after_write_witness :
    (GetPassword reverseCipher
        (CreatePassword reverseCipher 7 fourSecrets "team/db".toList "abc".toList "team1".toList
          "bob@pman.system".toList "team1:rw".toList).2
        "team/db".toList "team1".toList "team1:rw".toList = .ok "abc".toList) ∧
      ((UpdatePassword reverseCipher 7 fourSecrets "team/db".toList "abc".toList
          "team1".toList "bob@pman.system".toList "team1:rw".toList).1 = .ok () ∧
        GetPassword reverseCipher
          (UpdatePassword reverseCipher 7 fourSecrets "team/db".toList "abc".toList
            "team1".toList "bob@pman.system".toList "team1:rw".toList).2
          "team/db".toList "team1".toList "team1:rw".toList = .ok "abc".toList ∧
        (∃ r ∈ (UpdatePassword reverseCipher 7 fourSecrets "team/db".toList "abc".toList
            "team1".toList "bob@pman.system".toList "team1:rw".toList).2,
          r.Path = "team/db".toList ∧ r.GroupName = "team1".toList) ∧
        ∀ r ∈ (UpdatePassword reverseCipher 7 fourSecrets "team/db".toList "abc".toList
            "team1".toList "bob@pman.system".toList "team1:rw".toList).2,
          r.Path = "team/db".toList → r.GroupName = "team1".toList →
            r.Value = "cba".toList ∧ ("cba".toList ≠ "abc".toList → r.Value ≠ "abc".toList)) :=
  ⟨(GetPassword_after_write reverseCipher 7 fourSecrets "team/db".toList "abc".toList
      "team1".toList "bob@pman.system".toList "team1:rw".toList "cba".toList
      (by intro x e h; cases h; simp [reverseCipher]) (by decide) rfl).1.2.1,
    (GetPassword_after_write reverseCipher 7 fourSecrets "team/db".toList "abc".toList
      "team1".toList "bob@pman.system".toList "team1:rw".toList "cba".toList
      (by intro x e h; cases h; simp [reverseCipher]) (by decide) rfl).2
      ⟨_, List.mem_cons_self _ _, rfl, rfl⟩⟩

/-- C13: for a caller with read access on the group, `ListPasswords` with the
empty prefix returns exactly the paths of that group's rows, one for each row
and none for a row of another group, in ascending order of the full path
string compared character by character. -/
theorem ListPasswords_all_sorted (db : Passwords) (groupName userGroups : Str)
    (haccess : HasGroupAccess userGroups groupName false = true) :
    ∃ paths, ListPasswords db groupName [] userGroups = .ok paths ∧
      paths.Perm ((db.filter (fun r => decide (r.GroupName = groupName))).map (·.Path)) ∧
      paths.Sorted (· ≤ ·) := by
  refine ⟨orderBy ((db.filter (fun r => decide (r.GroupName = groupName))).map (·.Path)),
    ?_, ?_, ?_⟩
  · simp [ListPasswords, haccess]
  · exact List.perm_insertionSort _ _
  · exact List.sorted_insertionSort _ _

/-- Witness for C13: the stored paths `b/x`, `a/y`, `a/z` of `team1` are
listed as `a/y`, `a/z`, `b/x`, without the path of `team2`. -/
theorem ListPasswords_all_sorted_witness :
    ListPasswords threeSecrets "team1".toList [] "team1:ro".toList =
        .ok ["a/y".toList, "a/z".toList, "b/x".toList] ∧
      ∃ paths, ListPasswords threeSecrets "team1".toList [] "team1:ro".toList = .ok paths ∧
        paths.Perm ((threeSecrets.filter
          (fun r => decide (r.GroupName = "team1".toList))).map (·.Path)) ∧
        paths.Sorted (· ≤ ·) :=
  ⟨by decide, ListPasswords_all_sorted threeSecrets "team1".toList "team1:ro".toList
    (by decide)⟩

/-- C14, the code at failing inputs: the path `abc` starts with none of the
prefixes `a_c`, `%c` and `AB`, yet `ListPasswords` with each of them returns
it, since `_` and `%` in the prefix act as `LIKE` wildcards and ASCII letters
match in either case. -/
theorem ListPasswords_like_prefix :
    ¬ ("a_c".toList <+: "abc".toList) ∧
      ListPasswords [secretAt "abc".toList "team1".toList] "team1".toList "a_c".toList
        "team1:ro".toList = .ok ["abc".toList] ∧
      ¬ ("%c".toList <+: "abc".toList) ∧
      ListPasswords [secretAt "abc".toList "team1".toList] "team1".toList "%c".toList
        "team1:ro".toList = .ok ["abc".toList] ∧
      ¬ ("AB".toList <+: "abc".toList) ∧
      ListPasswords [secretAt "abc".toList "team1".toList] "team1".toList "AB".toList
        "team1:ro".toList = .ok ["abc".toList] := by
  decide

/-- C15: for a caller with write access, `DeletePassword(path, group)` returns
the not-found error and leaves the store unchanged when no row has the key
`(path, group)`; otherwise it succeeds and, folder cleanup included, leaves
exactly the rows with another key, unchanged and in their order (so every row
whose path merely starts with `path` and every row of another group stays),
and in a store keyed uniquely it removes exactly one row. -/
theorem DeletePassword_frame (db : Passwords) (path groupName userGroups : Str)
    (haccess : HasGroupAccess userGroups groupName true = true) :
    ((∀ r ∈ db, ¬ (r.Path = path ∧ r.GroupName = groupName)) →
      DeletePassword db path groupName userGroups = (.error .notFound, db)) ∧
    ((∃ r ∈ db, r.Path = path ∧ r.GroupName = groupName) →
      DeletePassword db path groupName userGroups =
          (.ok (), db.filter (fun r => !keyIs path groupName r)) ∧
        (∀ r ∈ db, ¬ (r.Path = path ∧ r.GroupName = groupName) →
          r ∈ (DeletePassword db path groupName userGroups).2) ∧
        (UniqueKeys db →
          (DeletePassword db path groupName userGroups).2.length + 1 = db.length)) := by
  rw [DeletePassword_authorized db path groupName userGroups haccess]
  constructor
  · intro habsent
    have hnone : db.filter (keyIs path groupName) = [] := by
      rw [List.filter_eq_nil_iff]
      intro r hr hk
      exact habsent r hr ((keyIs_iff _ _ _).1 hk)
    have hall : db.filter (fun r => !keyIs path groupName r) = db := by
      rw [List.filter_eq_self]
      intro r hr
      have := (keyIs_eq_false_iff path groupName r).2 (habsent r hr)
      simp [this]
    simp [hnone, hall]
  · rintro ⟨r0, hr0, hk0⟩
    have hmem : r0 ∈ db.filter (keyIs path groupName) :=
      List.mem_filter.2 ⟨hr0, (keyIs_iff _ _ _).2 hk0⟩
    have hpos : (db.filter (keyIs path groupName)).length ≠ 0 :=
      Nat.pos_iff_ne_zero.1 (List.length_pos_of_mem hmem)
    rw [if_neg hpos]
    refine ⟨rfl, ?_, ?_⟩
    · intro r hr hk
      have := (keyIs_eq_false_iff path groupName r).2 hk
      exact List.mem_filter.2 ⟨hr, by simp [this]⟩
    · intro hunique
      have h1 := UniqueKeys.filter_key_length db hunique path groupName ⟨r0, hr0, hk0⟩
      have h2 := length_filter_other db path groupName
      simp only
      omega

/-- Witness for C15: deleting `team/db` from the four secrets leaves the three
others, `team/dbx` and `team/db/user` among them; deleting `team/new` is
not-found. -/
theorem DeletePassword_frame_witness :
    DeletePassword fourSecrets "team/new".toList "team1".toList "team1:rw".toList =
        (.error .notFound, fourSecrets) ∧
      DeletePassword fourSecrets "team/db".toList "team1".toList "team1:rw".toList =
        (.ok (), [secretAt "team/db/user".toList "team1".toList,
          secretAt "team/db/pass".toList "team1".toList,
          secretAt "team/dbx".toList "team1".toList]) :=
  ⟨(DeletePassword_frame fourSecrets "team/new".toList "team1".toList "team1:rw".toList
      (by decide)).1 (by decide),
    ((DeletePassword_frame fourSecrets "team/db".toList "team1".toList "team1:rw".toList
      (by decide)).2 ⟨_, List.mem_cons_self _ _, rfl, rfl⟩).1⟩

/-! ## Theorems: session tokens and identities -/

/-- C16, the code at the failing input: on a server five hours behind UTC, at
2026-11-04 10:00:00 UTC, the token `tok` of `bob@pman.system` is stored with
an expiry one hour ahead and the tokens of `bob@pman.system` are revoked at
once.  The driver wrote the expiry as `2026-11-04 06:00:00 -0500 EST`, which
as text is not after the `CURRENT_TIMESTAMP` `2026-11-04 10:00:00`: the
`UPDATE` passes the row over, the `SELECT` finds no row, and `IsTokenRevoked`
answers false for a token that was revoked before its expiry. -/
theorem IsTokenRevoked_after_revoke_local_zone :
    StoreToken exampleSum256 [] "tok".toList "bob@pman.system".toList (tenUTC + 3600) =
        (.ok (), hourToken) ∧
      tenUTC < tenUTC + 3600 ∧
      (zoneText est).stored (tenUTC + 3600) = "2026-11-04 06:00:00 -0500 EST".toList ∧
      (zoneText est).current tenUTC = "2026-11-04 10:00:00".toList ∧
      IsTokenRevoked exampleSum256 (zoneText est) tenUTC
          (RevokeUserTokens (zoneText est) tenUTC
            (StoreToken exampleSum256 [] "tok".toList "bob@pman.system".toList
              (tenUTC + 3600)).2
            "bob@pman.system".toList).2 "tok".toList = .ok false := by
  decide

/-- C17, the code at the failing input: `RevokeUserTokens` succeeds, changes
no hash, email or expiry, leaves every row of any other user unchanged and
sets `revoked` on the rows of the email whose stored text is after the text of
`CURRENT_TIMESTAMP`; but on a server five hours behind UTC, at 2026-11-04
10:00:00 UTC, the row of `bob@pman.system` that expires one hour later holds
the text `2026-11-04 06:00:00 -0500 EST` and is left with `revoked = false`. -/
theorem RevokeUserTokens_local_zone :
    (∀ (fmt : TimeText) (now : Nat) (db : Tokens) (email : Str),
      (RevokeUserTokens fmt now db email).1 = .ok () ∧
        List.Forall₂
          (fun r r' =>
            r'.token_hash = r.token_hash ∧ r'.user_email = r.user_email ∧
              r'.expires_at = r.expires_at ∧
              (r.user_email = email ∧ fmt.stored r.expires_at > fmt.current now →
                r'.revoked = true) ∧
              (r.user_email ≠ email → r' = r))
          db (RevokeUserTokens fmt now db email).2) ∧
      (∀ r ∈ hourToken, r.user_email = "bob@pman.system".toList ∧ r.expires_at > tenUTC) ∧
      RevokeUserTokens (zoneText est) tenUTC hourToken "bob@pman.system".toList =
        (.ok (), hourToken) ∧
      (∀ r ∈ hourToken, r.revoked = false) := by
  refine ⟨?_, by decide, by decide, by decide⟩
  intro fmt now db email
  refine ⟨rfl, ?_⟩
  simp only [RevokeUserTokens]
  rw [List.forall₂_map_right_iff, List.forall₂_same]
  intro r _
  by_cases hc : r.user_email = email ∧ r.revoked = false ∧
      fmt.stored r.expires_at > fmt.current now
  · simp only [hc, and_self, if_true, true_and]
    exact ⟨fun _ => trivial, fun hne => absurd rfl hne⟩
  · simp only [hc, if_false, true_and]
    refine ⟨fun hx => ?_, fun _ => trivial⟩
    by_contra hrev
    exact hc ⟨hx.1, by simpa using hrev, hx.2⟩

/-- C18: for a token whose hash does not occur in the token store,
`IsTokenRevoked` returns false with no error. -/
theorem IsTokenRevoked_absent (sum256 : Str → List Nat) (fmt : TimeText) (now : Nat)
    (db : Tokens) (token : Str) (habsent : ∀ r ∈ db, r.token_hash ≠ HashToken sum256 token) :
    IsTokenRevoked sum256 fmt now db token = .ok false :=
  IsTokenRevoked_of_absent sum256 fmt now db token habsent

/-- Witness for C18: the token `tok` was never stored among the two tokens. -/
theorem IsTokenRevoked_absent_witness :
    IsTokenRevoked exampleSum256 (zoneText est) 5 twoTokens "tok".toList = .ok false :=
  IsTokenRevoked_absent exampleSum256 (zoneText est) 5 twoTokens "tok".toList (by decide)

/-- C19 as stated fails: storing the token `tok` a second time adds no row;
the `INSERT` of its hash, already in the unique column, returns an error. -/
theorem StoreToken_stored_twice_counterexample :
    StoreToken exampleSum256 [] "tok".toList "bob@pman.system".toList 50 =
        (.ok (), [{ token_hash := "746f6b".toList, user_email := "bob@pman.system".toList,
                    expires_at := 50, revoked := false }]) ∧
      StoreToken exampleSum256
          [{ token_hash := "746f6b".toList, user_email := "bob@pman.system".toList,
             expires_at := 50, revoked := false }]
          "tok".toList "bob@pman.system".toList 50 =
        (.error .uniqueConstraint,
          [{ token_hash := "746f6b".toList, user_email := "bob@pman.system".toList,
             expires_at := 50, revoked := false }]) := by
  decide

/-- C19 (amended): for a token whose hash is not yet stored, `StoreToken`
succeeds and adds exactly one row, after the existing rows, which are
unchanged; its fields are `(HashToken(token), email, expiresAt, revoked =
false)`, so the bearer token enters the table only through `HashToken`.  When
the hash is already stored, `StoreToken` returns an error and adds nothing. -/
theorem StoreToken_adds_hash_row (sum256 : Str → List Nat) (db : Tokens)
    (token email : Str) (expiresAt : Nat) :
    ((∀ r ∈ db, r.token_hash ≠ HashToken sum256 token) →
      StoreToken sum256 db token email expiresAt =
        (.ok (), db ++ [{ token_hash := HashToken sum256 token, user_email := email,
                          expires_at := expiresAt, revoked := false }])) ∧
    ((∃ r ∈ db, r.token_hash = HashToken sum256 token) →
      StoreToken sum256 db token email expiresAt = (.error .uniqueConstraint, db)) :=
  ⟨StoreToken_fresh sum256 db token email expiresAt,
    StoreToken_stored sum256 db token email expiresAt⟩

/-- Witness for C19: storing `tok` for `bob@pman.system` beside the two tokens
adds the row of its hash `746f6b`. -/
theorem StoreToken_adds_hash_row_witness :
    StoreToken exampleSum256 twoTokens "tok".toList "bob@pman.system".toList 50 =
      (.ok (), twoTokens ++
        [{ token_hash := "746f6b".toList, user_email := "bob@pman.system".toList,
           expires_at := 50, revoked := false }]) :=
  (StoreToken_adds_hash_row exampleSum256 twoTokens "tok".toList "bob@pman.system".toList
    50).1 (by decide)

/-- C20: `DisableUser` with the reserved email `admin@pman.system` returns an
error and changes neither the users nor the tokens.  With any other email it
succeeds; every identity with that email gets `enabled = false` (and the
current time as `updated_at`), every other identity is unchanged, afterwards
every token row of that email has `revoked = true`, and the token rows of
other users are unchanged.  The handler ends in the same state. -/
theorem DisableUser_guard_and_effect (fmt : TimeText) (now : Nat) (users : Users)
    (tokens : Tokens) :
    (DisableUser now users tokens adminEmail =
        (.error .cannotDisableDefaultAdmin, users, tokens) ∧
      Handlers.DisableUser fmt now users tokens adminEmail =
        (.serviceError .cannotDisableDefaultAdmin, users, tokens)) ∧
    ∀ email, email ≠ adminEmail →
      ∃ users' tokens',
        DisableUser now users tokens email = (.ok (), users', tokens') ∧
        Handlers.DisableUser fmt now users tokens email = (.disabled, users', tokens') ∧
        List.Forall₂
          (fun u u' =>
            (u.Email = email → u' = { u with Enabled := false, UpdatedAt := now }) ∧
              (u.Email ≠ email → u' = u))
          users users' ∧
        (∀ r ∈ tokens', r.user_email = email → r.revoked = true) ∧
        List.Forall₂ (fun r r' => r.user_email ≠ email → r' = r) tokens tokens' := by
  refine ⟨⟨by simp [DisableUser], by simp [Handlers.DisableUser, DisableUser]⟩, ?_⟩
  intro email hne
  refine ⟨_, _, DisableUser_other now users tokens email hne, ?_, ?_,
    DisableUser_tokens_revoked tokens email, ?_⟩
  · simp only [Handlers.DisableUser, DisableUser_other now users tokens email hne,
      RevokeUserTokens_of_revoked fmt now _ email (DisableUser_tokens_revoked tokens email)]
  · rw [List.forall₂_map_right_iff, List.forall₂_same]
    intro u _
    by_cases hu : u.Email = email
    · simp [hu]
    · simp [hu]
  · rw [List.forall₂_map_right_iff, List.forall₂_same]
    intro r _ hr
    simp [hr]

/-- Witness for C20: disabling `bob@pman.system` succeeds and revokes the
token of that email; the default admin cannot be disabled. -/
theorem DisableUser_guard_and_effect_witness :
    DisableUser 5 twoUsers twoTokens adminEmail =
        (.error .cannotDisableDefaultAdmin, twoUsers, twoTokens) ∧
      ∃ users' tokens',
        DisableUser 5 twoUsers twoTokens "bob@pman.system".toList = (.ok (), users', tokens') ∧
        (∀ r ∈ tokens', r.user_email = "bob@pman.system".toList → r.revoked = true) :=
  ⟨(DisableUser_guard_and_effect (zoneText est) 5 twoUsers twoTokens).1.1,
    let ⟨users', tokens', h1, _, _, h4, _⟩ :=
      (DisableUser_guard_and_effect (zoneText est) 5 twoUsers twoTokens).2
        "bob@pman.system".toList
        (by decide)
    ⟨users', tokens', h1, h4⟩⟩

/-- C21: `DeleteUser` with the reserved email `admin@pman.system` returns an
error and leaves the store unchanged; an identity with that email is present
once `createDefaultAdmin` has succeeded, and an identity with that email stays
in the store through every sequence of `DeleteUser` calls. -/
theorem DeleteUser_keeps_admin (users : Users) :
    DeleteUser users adminEmail = (.error .cannotDeleteDefaultAdmin, users) ∧
      (∀ (hasher : PasswordHasher) (now : Nat),
        (createDefaultAdmin hasher now users).1 = .ok () →
          ∃ u ∈ (createDefaultAdmin hasher now users).2, u.Email = adminEmail) ∧
      (∀ (emails : List Str) (u : User), u ∈ users → u.Email = adminEmail →
        u ∈ emails.foldl (fun us e => (DeleteUser us e).2) users) :=
  ⟨by simp [DeleteUser],
    fun hasher now hok => createDefaultAdmin_has_admin hasher now users hok,
    fun emails u hu hadmin => DeleteUser_foldl_mem emails users u hu hadmin⟩

/-- Witness for C21: after deleting `bob@pman.system` and trying the admin,
the admin row of the example table is still stored. -/
theorem DeleteUser_keeps_admin_witness :
    twoUsers.get ⟨0, by decide⟩ ∈
      ["bob@pman.system".toList, adminEmail].foldl (fun us e => (DeleteUser us e).2) twoUsers :=
  (DeleteUser_keeps_admin twoUsers).2.2 ["bob@pman.system".toList, adminEmail]
    (twoUsers.get ⟨0, by decide⟩) (by decide) (by decide)

/-- C22: `ValidateLogin` with an email that has no identity, and
`ValidateLogin` with the email of an existing enabled identity and a password
that does not match its hash, return the same error `invalid credentials` and
no user. -/
theorem ValidateLogin_same_error (hasher : PasswordHasher) (users : Users)
    (unknown known password1 password2 : Str) (u : User)
    (hunique : UniqueEmails users)
    (hunknown : ∀ x ∈ users, x.Email ≠ unknown)
    (hu : u ∈ users) (hknown : u.Email = known) (henabled : u.Enabled = true)
    (hwrong : hasher.CheckPasswordHash password2 u.Password = false) :
    ValidateLogin hasher users unknown password1 = .error .invalidCredentials ∧
      ValidateLogin hasher users known password2 = .error .invalidCredentials := by
  refine ⟨ValidateLogin_unknown hasher users unknown password1 hunknown, ?_⟩
  subst hknown
  simp [ValidateLogin, GetUserByEmail, find?_email_of_unique users hunique u hu, henabled,
    hwrong]

/-- Witness for C22: the unknown `eve@pman.system` and `bob@pman.system` with a
wrong password get the same error. -/
theorem ValidateLogin_same_error_witness :
    ValidateLogin reverseHasher twoUsers "eve@pman.system".toList "x".toList =
        .error .invalidCredentials ∧
      ValidateLogin reverseHasher twoUsers "bob@pman.system".toList "wrong".toList =
        .error .invalidCredentials :=
  ValidateLogin_same_error reverseHasher twoUsers "eve@pman.system".toList
    "bob@pman.system".toList "x".toList "wrong".toList (twoUsers.get ⟨1, by decide⟩)
    (by decide) (by decide) (by decide) rfl rfl (by decide)

/-- C23: in every state reached from the bootstrap state by any sequence of
`CreateUser`, `UpdateUser`, `DeleteUser`, `EnableUser`, `DisableUser` and
`ChangePassword` calls (and of logins and token calls besides), the groups
string of every stored identity parses with `ParseGroups`; and `CreateUser`
and `UpdateUser` called with a string `ParseGroups` rejects return an error
and leave the store unchanged. -/
theorem stored_groups_always_parse (hasher : PasswordHasher) (sum256 : Str → List Nat)
    (fmt : TimeText) (now : Nat) (ops : List Op) :
    GroupsParse (run hasher sum256 fmt (bootstrap hasher now) ops).users ∧
      ∀ (users : Users) (t : Nat) (password email role groupsStr : Str) (err : ParseError),
        ParseGroups groupsStr = .error err →
          CreateUser hasher t password users email role groupsStr =
              (.error (.invalidGroupsFormat err), users) ∧
            UpdateUser t users email role groupsStr =
              (.error (.invalidGroupsFormat err), users) := by
  refine ⟨GroupsParse_run hasher sum256 fmt ops _ (GroupsParse_bootstrap hasher now), ?_⟩
  intro users t password email role groupsStr err herr
  simp [CreateUser, UpdateUser, herr]

/-- Witness for C23: creating `eve` with the groups `team1:admin` fails and
stores nothing, and after the calls of the example every groups string
parses. -/
theorem stored_groups_always_parse_witness :
    CreateUser reverseHasher 1 "pw".toList twoUsers "eve".toList "user".toList
        "team1:admin".toList =
        (.error (.invalidGroupsFormat (.invalidPermission "admin".toList "team1".toList)),
          twoUsers) ∧
      GroupsParse (run reverseHasher exampleSum256 (zoneText est) (bootstrap reverseHasher 0)
        bobScenario).users :=
  ⟨((stored_groups_always_parse reverseHasher exampleSum256 (zoneText est) 0 []).2 twoUsers 1
      "pw".toList "eve".toList "user".toList "team1:admin".toList
      (.invalidPermission "admin".toList "team1".toList) (by decide)).1,
    (stored_groups_always_parse reverseHasher exampleSum256 (zoneText est) 0 bobScenario).1⟩

/-- C24, the code at the failing input: in every state reached from the
bootstrap state by any sequence of logins (`ValidateLogin` followed by
`StoreToken`), `CreateUser`, `UpdateUser`, `EnableUser`, `DisableUser`,
`RevokeUserTokens` and `CleanupExpiredTokens` calls (and of `DeleteUser` and
`ChangePassword` besides), every token row whose `user_email` belongs to an
identity with `enabled = false` has `revoked = true`.  Yet on a server five
hours behind UTC, where `bob` logs in at 2026-11-04 10:00:00 UTC with a token
of one day and is disabled one minute later, `IsTokenRevoked` answers false
for that token one hour before its expiry: its row has `revoked = true`, but
its stored text `2026-11-05 05:00:00 -0500 EST` is not after the
`CURRENT_TIMESTAMP` `2026-11-05 09:00:00`, so the `SELECT` finds no row. -/
theorem disabled_identity_tokens_local_zone :
    (∀ (hasher : PasswordHasher) (sum256 : Str → List Nat) (fmt : TimeText) (now : Nat)
        (ops : List Op), DisabledRevoked (run hasher sum256 fmt (bootstrap hasher now) ops)) ∧
      (∃ u ∈ (run reverseHasher exampleSum256 (zoneText est) (bootstrap reverseHasher tenUTC)
          bobDay).users, u.Email = "bob".toList ∧ u.Enabled = false) ∧
      (∃ t ∈ (run reverseHasher exampleSum256 (zoneText est) (bootstrap reverseHasher tenUTC)
          bobDay).tokens,
        t.token_hash = HashToken exampleSum256 "tok".toList ∧ t.user_email = "bob".toList ∧
          t.revoked = true ∧ t.expires_at > tenUTC + 82800 ∧
          (zoneText est).stored t.expires_at = "2026-11-05 05:00:00 -0500 EST".toList) ∧
      (zoneText est).current (tenUTC + 82800) = "2026-11-05 09:00:00".toList ∧
      IsTokenRevoked exampleSum256 (zoneText est) (tenUTC + 82800)
          (run reverseHasher exampleSum256 (zoneText est) (bootstrap reverseHasher tenUTC)
            bobDay).tokens "tok".toList = .ok false := by
  refine ⟨?_, by decide, by decide, by decide, by decide⟩
  intro hasher sum256 fmt now ops
  exact (invariant_run hasher sum256 fmt ops _ (invariant_bootstrap hasher now)).2.2

/-- C25, the code at the failing input: `CleanupExpiredTokens` succeeds and
keeps exactly the rows whose stored text is after the text of
`CURRENT_TIMESTAMP`, in their order; run a second time at the same time it
changes nothing, and for every token `IsTokenRevoked` at that time answers the
same before and after.  But on a server five hours behind UTC, at 2026-11-04
10:00:00 UTC, the sweep removes the row that expires one hour later, whose
stored text is `2026-11-04 06:00:00 -0500 EST`; and on a server one hour ahead
of UTC, at the same time, it keeps a row that expired half an hour before,
whose stored text is `2026-11-04 10:30:00 +0100 CET`. -/
theorem CleanupExpiredTokens_local_zone :
    (∀ (sum256 : Str → List Nat) (fmt : TimeText) (now : Nat) (db : Tokens),
      CleanupExpiredTokens fmt now db =
          (.ok (), db.filter (fun r => decide (fmt.stored r.expires_at > fmt.current now))) ∧
        CleanupExpiredTokens fmt now (CleanupExpiredTokens fmt now db).2 =
          (.ok (), (CleanupExpiredTokens fmt now db).2) ∧
        ∀ token, IsTokenRevoked sum256 fmt now (CleanupExpiredTokens fmt now db).2 token =
          IsTokenRevoked sum256 fmt now db token) ∧
      (∀ r ∈ hourToken, r.expires_at > tenUTC) ∧
      CleanupExpiredTokens (zoneText est) tenUTC hourToken = (.ok (), []) ∧
      CleanupExpiredTokens (zoneText cet) tenUTC
          [{ token_hash := "746f6b".toList, user_email := "bob@pman.system".toList,
             expires_at := tenUTC - 1800, revoked := false }] =
        (.ok (), [{ token_hash := "746f6b".toList, user_email := "bob@pman.system".toList,
                    expires_at := tenUTC - 1800, revoked := false }]) := by
  refine ⟨?_, by decide, by decide, by decide⟩
  intro sum256 fmt now db
  have hfilter : db.filter (fun r => !decide (fmt.stored r.expires_at ≤ fmt.current now)) =
      db.filter (fun r => decide (fmt.stored r.expires_at > fmt.current now)) := by
    apply List.filter_congr
    intro r _
    by_cases h : fmt.stored r.expires_at > fmt.current now
    · have h' : ¬ fmt.stored r.expires_at ≤ fmt.current now := not_le.2 h
      simp [h, h']
    · have h' : fmt.stored r.expires_at ≤ fmt.current now := not_lt.1 h
      simp [h, h']
  refine ⟨?_, ?_, ?_⟩
  · simp only [CleanupExpiredTokens, hfilter]
  · simp only [CleanupExpiredTokens, List.filter_filter, Bool.and_self]
  · intro token
    simp only [CleanupExpiredTokens, IsTokenRevoked, hfilter, List.find?_filter]
    have hp : (fun r : Token =>
        decide (decide (fmt.stored r.expires_at > fmt.current now) = true ∧
          (decide (r.token_hash = HashToken sum256 token) &&
            decide (fmt.stored r.expires_at > fmt.current now)) = true)) =
        fun r : Token => decide (r.token_hash = HashToken sum256 token) &&
          decide (fmt.stored r.expires_at > fmt.current now) := by
      funext r
      by_cases h : fmt.stored r.expires_at > fmt.current now <;> simp [h]
    rw [hp]

/-- C30: for a caller with write access and a stored row of key
`(path, group)`, an `UpdatePassword` that succeeds, the cipher returning the
envelope `enc`, leaves the rows in place: the row of that key keeps its path,
group, `created_by` and `created_at` and gets `enc`, the actor as `updated_by`
and the current time as `updated_at`; every other row is unchanged, and so is
the number of rows. -/
theorem UpdatePassword_frame (crypto : Cipher) (now : Nat) (db : Passwords)
    (path value groupName userEmail userGroups enc : Str)
    (haccess : HasGroupAccess userGroups groupName true = true)
    (hrow : ∃ r ∈ db, r.Path = path ∧ r.GroupName = groupName)
    (henc : crypto.Encrypt value = .ok enc) :
    (UpdatePassword crypto now db path value groupName userEmail userGroups).1 = .ok () ∧
      (UpdatePassword crypto now db path value groupName userEmail userGroups).2.length =
        db.length ∧
      List.Forall₂
        (fun r r' =>
          (r.Path = path ∧ r.GroupName = groupName →
            r' = { r with Value := enc, UpdatedBy := userEmail, UpdatedAt := now }) ∧
          (¬ (r.Path = path ∧ r.GroupName = groupName) → r' = r))
        db (UpdatePassword crypto now db path value groupName userEmail userGroups).2 := by
  have hany : db.any (keyIs path groupName) = true := by
    rw [List.any_eq_true]
    obtain ⟨r, hr, hk⟩ := hrow
    exact ⟨r, hr, (keyIs_iff _ _ _).2 hk⟩
  have hres : UpdatePassword crypto now db path value groupName userEmail userGroups =
      (.ok (), db.map fun r =>
        if keyIs path groupName r then
          { r with Value := enc, UpdatedBy := userEmail, UpdatedAt := now }
        else r) := by
    simp [UpdatePassword, haccess, hany, henc]
  rw [hres]
  refine ⟨rfl, by simp, ?_⟩
  simp only
  rw [List.forall₂_map_right_iff, List.forall₂_same]
  intro r _
  by_cases hk : keyIs path groupName r = true
  · have hk' := (keyIs_iff _ _ _).1 hk
    simp [hk, hk']
  · have hk' : ¬ (r.Path = path ∧ r.GroupName = groupName) :=
      fun h => hk ((keyIs_iff _ _ _).2 h)
    simp [hk, hk']

/-- Witness for C30: updating `team/db` among the four secrets as `bob`
changes the first row only. -/
theorem UpdatePassword_frame_witness :
    (UpdatePassword reverseCipher 7 fourSecrets "team/db".toList "abc".toList "team1".toList
        "bob".toList "team1:rw".toList).1 = .ok () ∧
      (UpdatePassword reverseCipher 7 fourSecrets "team/db".toList "abc".toList "team1".toList
        "bob".toList "team1:rw".toList).2.length = 4 :=
  ⟨(UpdatePassword_frame reverseCipher 7 fourSecrets "team/db".toList "abc".toList
      "team1".toList "bob".toList "team1:rw".toList "cba".toList (by decide)
      ⟨_, List.mem_cons_self _ _, rfl, rfl⟩ rfl).1,
    (UpdatePassword_frame reverseCipher 7 fourSecrets "team/db".toList "abc".toList
      "team1".toList "bob".toList "team1:rw".toList "cba".toList (by decide)
      ⟨_, List.mem_cons_self _ _, rfl, rfl⟩ rfl).2.1⟩

/-- C29: for every list of grants whose group names contain no `,` and no
`:` and have no leading or trailing white space, and whose permissions are
each `ro` or `rw`, `ParseGroups(FormatGroups(grants))` succeeds and returns
the same grants in the same order. -/
theorem ParseGroups_FormatGroups (grants : List GroupAccess)
    (hname : ∀ g ∈ grants, ',' ∉ g.GroupName ∧ ':' ∉ g.GroupName ∧
      strings.TrimSpace g.GroupName = g.GroupName)
    (hperm : ∀ g ∈ grants, g.Permission = tokenRO ∨ g.Permission = tokenRW) :
    ParseGroups (FormatGroups grants) = .ok grants := by
  cases hg : grants with
  | nil => rfl
  | cons g0 rest =>
    rw [← hg]
    have hentry := fun g (hgm : g ∈ grants) =>
      entry_roundtrip g (hname g hgm).1 (hname g hgm).2.1 (hname g hgm).2.2 (hperm g hgm)
    have hne : grants.map (fun group => group.GroupName ++ [':'] ++ group.Permission) ≠ [] := by
      rw [hg]; simp
    have hparts : entries (FormatGroups grants) =
        grants.map (fun group => group.GroupName ++ [':'] ++ group.Permission) := by
      unfold entries FormatGroups
      apply strings.Split_Join _ _ hne
      intro e he
      obtain ⟨g, hgm, rfl⟩ := List.mem_map.1 he
      exact (hentry g hgm).1
    rw [ParseGroups_eq_loop, hparts, ParseGroups.loop_ok]
    · congr 1
      simp only [liveEntries, List.nil_append, List.map_map]
      rw [List.filter_eq_self.2, List.map_map]
      · conv_rhs => rw [← List.map_id grants]
        apply List.map_congr_left
        intro g hgm
        simp only [Function.comp, id]
        rw [(hentry g hgm).2.1]
        exact (hentry g hgm).2.2.2
      · intro part hpart
        obtain ⟨g, hgm, rfl⟩ := List.mem_map.1 hpart
        simp only [Function.comp, (hentry g hgm).2.1]
        simp
    · intro e he
      obtain ⟨g, hgm, rfl⟩ := List.mem_map.1 he
      exact (hentry g hgm).2.2.1

/-- Witness for C29: two grants, one of them with a space inside its name,
come back from their formatted string. -/
theorem ParseGroups_FormatGroups_witness :
    FormatGroups [⟨"team 1".toList, tokenRW⟩, ⟨"ops".toList, tokenRO⟩] =
        "team 1:rw,ops:ro".toList ∧
      ParseGroups (FormatGroups [⟨"team 1".toList, tokenRW⟩, ⟨"ops".toList, tokenRO⟩]) =
        .ok [⟨"team 1".toList, tokenRW⟩, ⟨"ops".toList, tokenRO⟩] :=
  ⟨by decide, ParseGroups_FormatGroups _ (by decide) (by decide)⟩

/-! ## Theorems: command-line arguments -/

/-- C26, the code at the failing input: `-é` is a flag of two characters, with
no value-taking flag around, which the claim keeps whole; the code counts and
reads bytes, finds three of them, and expands the flag byte by byte into `-Ã`
and `-©`. -/
theorem expandCombinedFlags_splits_bytes :
    "-é".toList.length = 2 ∧
      specExpand ["-é".toList] = ["-é".toList] ∧
      (∀ t ∈ expand ["-é".toList], isValueFlag t = false) ∧
      bytes "-é".toList = [0x2D, 0xC3, 0xA9] ∧
      expandCombinedFlags ["-é".toList] = ["-Ã".toList, "-©".toList] := by
  decide

/-- C27: the result of `expandCombinedFlags` is, of the tokens after expansion
of combined flags, those that belong to the flags (a token that begins with
`-`, or the token right after a value-taking flag, its value) in their order,
followed by the remaining positional arguments in their order.  So whenever a
value-taking flag is immediately followed by a token that does not begin with
`-`, that token immediately follows the flag among the flags, and the
positional arguments are those of the tokens before the flag and after the
value. -/
theorem expandCombinedFlags_values_follow (args : List Str) :
    expandCombinedFlags args = specFlags (expand args) ++ specPositional (expand args) ∧
      ∀ pre f v post, expand args = pre ++ f :: v :: post → isValueFlag f = true →
        hasDash v = false →
        specFlags (expand args) = specFlags pre ++ f :: v :: specFlags post ∧
          specPositional (expand args) = specPositional pre ++ specPositional post := by
  refine ⟨?_, ?_⟩
  · rw [specFlags_eq, specPositional_eq]
    rfl
  · intro pre f v post hsplit hv hnd
    have hd := isValueFlag_hasDash f hv
    obtain ⟨e1, e2⟩ := separate_append pre (v :: post) f hd
    obtain ⟨e3, e4⟩ := separate_cons_value f v post hd hv hnd
    simp only [specFlags_eq, specPositional_eq]
    rw [hsplit, e1, e2, e3, e4]
    exact ⟨rfl, rfl⟩

/-- Witness for C27: `path -g mygroup` becomes `-g mygroup path`,
`-rfg group1 path` becomes `-r -f -g group1 path`, and `-r secret -g team1`
becomes `-r -g team1 secret`; in the second, `group1` follows `-g` among the
flags and `path` is the only positional argument. -/
theorem expandCombinedFlags_values_follow_witness :
    expandCombinedFlags ["path".toList, "-g".toList, "mygroup".toList] =
        ["-g".toList, "mygroup".toList, "path".toList] ∧
      expandCombinedFlags ["-rfg".toList, "group1".toList, "path".toList] =
        ["-r".toList, "-f".toList, "-g".toList, "group1".toList, "path".toList] ∧
      expandCombinedFlags ["-r".toList, "secret".toList, "-g".toList, "team1".toList] =
        ["-r".toList, "-g".toList, "team1".toList, "secret".toList] ∧
      (specFlags (expand ["-rfg".toList, "group1".toList, "path".toList]) =
          specFlags ["-r".toList, "-f".toList] ++
            "-g".toList :: "group1".toList :: specFlags ["path".toList] ∧
        specPositional (expand ["-rfg".toList, "group1".toList, "path".toList]) =
          specPositional ["-r".toList, "-f".toList] ++ specPositional ["path".toList]) :=
  ⟨(expandCombinedFlags_values_follow ["path".toList, "-g".toList, "mygroup".toList]).1.trans
      (by decide),
    (expandCombinedFlags_values_follow ["-rfg".toList, "group1".toList, "path".toList]).1.trans
      (by decide),
    (expandCombinedFlags_values_follow
      ["-r".toList, "secret".toList, "-g".toList, "team1".toList]).1.trans (by decide),
    (expandCombinedFlags_values_follow ["-rfg".toList, "group1".toList, "path".toList]).2
      ["-r".toList, "-f".toList] "-g".toList "group1".toList ["path".toList]
      (by decide) (by decide) (by decide)⟩

/-! ## Theorems: tree view -/

/-- C28: the tree `BuildTree` returns has a node reached from the root by the
names `s1`, .., `sk` (`k ≥ 1`) exactly when some path of the list has
non-empty `/`-separated segments beginning `s1`, .., `sk`; so a folder under
which no listed path lies is not in the tree. -/
theorem BuildTree_nodes (paths : List Str) (rootName : Str) (names : List Str)
    (hnames : names ≠ []) :
    ((BuildTree paths rootName).descend names).isSome = true ↔
      ∃ path ∈ paths, names <+: segments path := by
  unfold BuildTree
  rw [descend_foldl, descend_NewNode]
  constructor
  · rintro (h | h)
    · exact absurd h hnames
    · exact h
  · exact Or.inr

/-- Witness for C28: with `team/db/user` and `team/db/pass` listed the folder
`team/db` is in the tree; with `team/db/user` alone removed from a list of one
path, it is not. -/
theorem BuildTree_nodes_witness :
    (((BuildTree ["team/db/user".toList, "team/db/pass".toList] "team1".toList).descend
        ["team".toList, "db".toList]).isSome = true ↔
      ∃ path ∈ ["team/db/user".toList, "team/db/pass".toList],
        ["team".toList, "db".toList] <+: segments path) ∧
      ((BuildTree [] "team1".toList).descend ["team".toList, "db".toList]).isSome = false :=
  ⟨BuildTree_nodes ["team/db/user".toList, "team/db/pass".toList] "team1".toList
      ["team".toList, "db".toList] (by decide),
    by decide⟩

end Pman
